import Mathlib

/-!
Verification of the HPACK (RFC 7541) codec in `src/brpc/details/hpack.cpp`.

Byte strings are modelled as `List Nat` whose elements are below 256; the
C++ `uint8_t`/`uint32_t`/`uint64_t` truncations are written as explicit
`% 2^w` or bit-masks exactly where the source performs a narrowing cast.
Encoder functions return the list of bytes pushed to the `IOBufAppender`
(the count the C++ returns is exactly the number of pushes, i.e. the
length of that list); decoder functions take the list of remaining input
bytes and return the C++ return value together with the out-parameters
and the advanced iterator (the remaining suffix).
-/

set_option maxRecDepth 100000

deriving instance DecidableEq for Except

namespace brpc

/-- `HPacker::Header`: a pair of octet strings. -/
structure Header where
  name : List Nat
  value : List Nat
deriving DecidableEq, Repr

/-- `IndexTable::HeaderSize`, RFC 7541 section 4.1:
`h.name.size() + h.value.size() + 32`. -/
def HeaderSize (h : Header) : Nat := h.name.length + h.value.length + 32

/-- `MAX_HPACK_INTEGER = 10 * 1024 * 1024ul` (hpack.cpp line 483). -/
def MAX_HPACK_INTEGER : Nat := 10 * 1024 * 1024

/-- The continuation-byte loop of `EncodeInteger` (hpack.cpp lines 443-448),
with structural fuel (the loop runs at most `value` times since `value`
strictly shrinks): while `value >= 128` push `(value & 0x7f) | 0x80` and
shift by 7; finally push `value` (the narrowing cast to `uint8_t` is exact
since `value < 128` there). -/
def encodeIntContF : Nat → Nat → List Nat
  | 0, value => [value]
  | fuel + 1, value =>
    if value ≥ 128 then
      ((value &&& 0x7f) ||| 0x80) :: encodeIntContF fuel (value >>> 7)
    else
      [value]

def encodeIntCont (value : Nat) : List Nat := encodeIntContF value value

theorem encodeIntContF_fuel (f1 : Nat) : ∀ (f2 value : Nat), value ≤ f1 → value ≤ f2 →
    encodeIntContF f1 value = encodeIntContF f2 value := by
  induction f1 using Nat.strong_induction_on with
  | _ f1 ih =>
    intro f2 value h1 h2
    match f1, f2 with
    | 0, 0 => rfl
    | 0, f2 + 1 =>
      have hv : value = 0 := by omega
      rw [hv]
      rfl
    | f1 + 1, 0 =>
      have hv : value = 0 := by omega
      rw [hv]
      rfl
    | f1 + 1, f2 + 1 =>
      show (if value ≥ 128 then _ :: encodeIntContF f1 (value >>> 7) else [value]) =
        (if value ≥ 128 then _ :: encodeIntContF f2 (value >>> 7) else [value])
      by_cases hv : value ≥ 128
      · rw [if_pos hv, if_pos hv]
        have hq : value >>> 7 = value / 128 := by
          rw [Nat.shiftRight_eq_div_pow]
        have hlt : value >>> 7 ≤ f1 := by
          rw [hq]
          have := Nat.div_le_self value 128
          have := Nat.div_lt_self (show 0 < value by omega) (show 1 < 128 by norm_num)
          omega
        have hlt2 : value >>> 7 ≤ f2 := by
          rw [hq]
          have := Nat.div_lt_self (show 0 < value by omega) (show 1 < 128 by norm_num)
          omega
        rw [ih f1 (by omega) f2 (value >>> 7) hlt hlt2]
      · rw [if_neg hv, if_neg hv]

/-- `EncodeInteger(out, msb, prefix_size, value)` (hpack.cpp lines 431-450),
returning the pushed bytes.  `msb |= value` assigns to a `uint8_t`, hence
the `% 256`. -/
def EncodeInteger (msb psize value : Nat) : List Nat :=
  let maxPrefix := (1 <<< psize) - 1
  if value < maxPrefix then
    [(msb ||| value) % 256]
  else
    ((msb ||| maxPrefix) % 256) :: encodeIntCont (value - maxPrefix)

/-- The do-while loop of `DecodeInteger` (hpack.cpp lines 500-509), with
`tmp` accumulated in `uint64_t`.  Returns (return value, `*value`,
remaining input). -/
def decodeIntLoop : List Nat → Nat → Nat → Nat → Int × Nat × List Nat
  | [], _, _, _ => (0, 0, [])
  | cur :: rest, tmp, m, inBytes =>
    let tmp' := (tmp + ((cur &&& 0x7f) <<< m)) % 2 ^ 64
    if cur &&& 0x80 ≠ 0 ∧ tmp' < MAX_HPACK_INTEGER then
      decodeIntLoop rest tmp' (m + 7) (inBytes + 1)
    else if tmp' ≥ MAX_HPACK_INTEGER then
      (-1, 0, rest)
    else
      (((inBytes + 1 : Nat) : Int), tmp' % 2 ^ 32, rest)

/-- `DecodeInteger(iter, prefix_size, value)` (hpack.cpp lines 485-519).
Returns (return value, `*value`, remaining input); when the C++ returns
without writing `*value` we return 0 for it, which is what every caller
in hpack.cpp observes (they initialise the out-variable to 0 and never
read it on a non-positive return). -/
def DecodeInteger (input : List Nat) (psize : Nat) : Int × Nat × List Nat :=
  match input with
  | [] => (0, 0, [])
  | b :: rest =>
    let tmp := b &&& ((1 <<< psize) - 1)
    if tmp < (1 <<< psize) - 1 then
      (1, tmp, rest)
    else
      decodeIntLoop rest tmp 0 1

/-! ### Integer codec round-trip -/

theorem encodeIntCont_eq (value : Nat) :
    encodeIntCont value =
      if value ≥ 128 then
        ((value &&& 0x7f) ||| 0x80) :: encodeIntCont (value >>> 7)
      else [value] := by
  unfold encodeIntCont
  match value with
  | 0 => rfl
  | v + 1 =>
    show (if v + 1 ≥ 128 then _ :: encodeIntContF v ((v + 1) >>> 7) else [v + 1]) = _
    by_cases hv : v + 1 ≥ 128
    · rw [if_pos hv, if_pos hv]
      have hq : (v + 1) >>> 7 = (v + 1) / 128 := by
        rw [Nat.shiftRight_eq_div_pow]
      rw [encodeIntContF_fuel v ((v + 1) >>> 7) ((v + 1) >>> 7) (by
          rw [hq]
          have := Nat.div_lt_self (show 0 < v + 1 by omega) (show 1 < 128 by norm_num)
          omega) le_rfl]
    · rw [if_neg hv, if_neg hv]

theorem and_127_eq_mod (x : Nat) : x &&& 127 = x % 128 := by
  have h : (127 : Nat) = 2 ^ 7 - 1 := by norm_num
  rw [h, Nat.and_pow_two_sub_one_eq_mod]

theorem contByte_and_127 (x : Nat) :
    ((x &&& 127) ||| 128) &&& 127 = x % 128 := by
  rw [Nat.and_distrib_right, Nat.and_assoc]
  rw [show (127 : Nat) &&& 127 = 127 by decide, show (128 : Nat) &&& 127 = 0 by decide,
    Nat.or_zero, and_127_eq_mod]

theorem contByte_and_128 (x : Nat) :
    ((x &&& 127) ||| 128) &&& 128 = 128 := by
  rw [Nat.and_distrib_right, Nat.and_assoc]
  rw [show (127 : Nat) &&& 128 = 0 by decide, Nat.and_zero, Nat.zero_or, Nat.and_self]

/-- The continuation loop of `DecodeInteger` inverts the continuation loop of
`EncodeInteger`, for accumulated values below the 10 MiB safety bound. -/
theorem decodeIntLoop_encodeIntCont (x : Nat) : ∀ (tmp m k : Nat) (rest : List Nat),
    tmp + x * 2 ^ m < MAX_HPACK_INTEGER →
    decodeIntLoop (encodeIntCont x ++ rest) tmp m k =
      (((k + (encodeIntCont x).length : Nat) : Int), tmp + x * 2 ^ m, rest) := by
  induction x using Nat.strong_induction_on with
  | _ x ih =>
    intro tmp m k rest hbound
    have hmax64 : MAX_HPACK_INTEGER < 2 ^ 64 := by norm_num [MAX_HPACK_INTEGER]
    have hmax32 : MAX_HPACK_INTEGER < 2 ^ 32 := by norm_num [MAX_HPACK_INTEGER]
    rw [encodeIntCont_eq]
    by_cases hx : x ≥ 128
    · rw [if_pos hx]
      simp only [List.cons_append]
      rw [decodeIntLoop]
      have h1 : (((x &&& 127) ||| 128) &&& 0x7f) = x % 128 := contByte_and_127 x
      have h2 : (((x &&& 127) ||| 128) &&& 0x80) = 128 := contByte_and_128 x
      have hxsplit : x % 128 + 128 * (x / 128) = x := Nat.mod_add_div x 128
      have htmp' : tmp + (x % 128) * 2 ^ m < MAX_HPACK_INTEGER := by
        have : (x % 128) * 2 ^ m ≤ x * 2 ^ m :=
          Nat.mul_le_mul_right _ (Nat.mod_le x 128)
        omega
      have hshift : (x % 128) <<< m = (x % 128) * 2 ^ m := Nat.shiftLeft_eq _ _
      have hmodid : (tmp + (x % 128) * 2 ^ m) % 2 ^ 64 = tmp + (x % 128) * 2 ^ m :=
        Nat.mod_eq_of_lt (by omega)
      simp only [h1, h2, hshift, hmodid]
      have hcond : (128 ≠ 0 ∧ tmp + x % 128 * 2 ^ m < MAX_HPACK_INTEGER) := ⟨by omega, htmp'⟩
      rw [if_pos hcond]
      have hq : x >>> 7 = x / 128 := by
        rw [Nat.shiftRight_eq_div_pow]
      have hrec := ih (x >>> 7) (by
          rw [hq]; exact Nat.div_lt_self (by omega) (by norm_num))
        (tmp + x % 128 * 2 ^ m) (m + 7) (k + 1) rest (by
          rw [hq, pow_add]
          have heq : x / 128 * (2 ^ m * 2 ^ 7) = 128 * (x / 128) * 2 ^ m := by ring
          rw [heq]
          calc tmp + x % 128 * 2 ^ m + 128 * (x / 128) * 2 ^ m
              = tmp + (x % 128 + 128 * (x / 128)) * 2 ^ m := by ring
            _ = tmp + x * 2 ^ m := by rw [hxsplit]
            _ < MAX_HPACK_INTEGER := hbound)
      rw [hrec]
      have harith : tmp + x % 128 * 2 ^ m + x >>> 7 * 2 ^ (m + 7) = tmp + x * 2 ^ m := by
        rw [hq, pow_add]
        calc tmp + x % 128 * 2 ^ m + x / 128 * (2 ^ m * 2 ^ 7)
            = tmp + (x % 128 + 128 * (x / 128)) * 2 ^ m := by ring
          _ = tmp + x * 2 ^ m := by rw [hxsplit]
      rw [harith]
      simp only [List.length_cons, Prod.mk.injEq, Nat.cast_inj, and_true]
      omega
    · have hxlt : x < 128 := by omega
      rw [if_neg hx]
      simp only [List.singleton_append]
      rw [decodeIntLoop]
      have h1 : x &&& 0x7f = x := by
        rw [and_127_eq_mod]; exact Nat.mod_eq_of_lt hxlt
      have h2 : x &&& 0x80 = 0 := by
        have heq : x &&& 128 = (x &&& 127) &&& 128 := by
          rw [and_127_eq_mod, Nat.mod_eq_of_lt hxlt]
        rw [show (0x80 : Nat) = 128 from rfl, heq, Nat.and_assoc,
          show (127 : Nat) &&& 128 = 0 by decide, Nat.and_zero]
      have hshift : x <<< m = x * 2 ^ m := Nat.shiftLeft_eq _ _
      have hmodid : (tmp + x * 2 ^ m) % 2 ^ 64 = tmp + x * 2 ^ m :=
        Nat.mod_eq_of_lt (by omega)
      simp only [h1, h2, hshift, hmodid]
      rw [if_neg (by omega), if_neg (by omega)]
      rw [Nat.mod_eq_of_lt (show tmp + x * 2 ^ m < 2 ^ 32 by omega)]
      simp only [List.length_singleton]

/-- `DecodeInteger` inverts `EncodeInteger` on the same prefix size, consuming
exactly the emitted bytes and leaving any appended suffix untouched, provided
the low `psize` bits of `msb` are clear and the value is below the 10 MiB
bound. -/
theorem DecodeInteger_EncodeInteger (msb psize v : Nat) (rest : List Nat)
    (hps1 : 1 ≤ psize) (hps7 : psize ≤ 7) (hmsb : msb < 256)
    (hmask : msb &&& ((1 <<< psize) - 1) = 0) (hv : v < MAX_HPACK_INTEGER) :
    DecodeInteger (EncodeInteger msb psize v ++ rest) psize =
      ((((EncodeInteger msb psize v).length : Nat) : Int), v, rest) := by
  have hsh : (1 : Nat) <<< psize = 2 ^ psize := by
    rw [Nat.shiftLeft_eq, one_mul]
  have h8 : (2 : Nat) ^ 8 = 256 := by norm_num
  have hP : 0 < 2 ^ psize := Nat.pow_pos (by norm_num)
  have hMlt : 2 ^ psize - 1 < 256 := by
    have : (2 : Nat) ^ psize ≤ 2 ^ 7 := Nat.pow_le_pow_right (by norm_num) hps7
    norm_num at this
    omega
  have hMpos : 1 ≤ 2 ^ psize - 1 := by
    have : (2 : Nat) ^ 1 ≤ 2 ^ psize := Nat.pow_le_pow_right (by norm_num) hps1
    norm_num at this
    omega
  unfold EncodeInteger DecodeInteger
  simp only [hsh] at hmask ⊢
  by_cases hlt : v < 2 ^ psize - 1
  · rw [if_pos hlt]
    have hor : msb ||| v < 2 ^ 8 := Nat.or_lt_two_pow (by omega) (by omega)
    have hb : (msb ||| v) % 256 = msb ||| v := Nat.mod_eq_of_lt (by omega)
    have hband : (msb ||| v) &&& (2 ^ psize - 1) = v := by
      rw [Nat.and_distrib_right, hmask, Nat.and_pow_two_sub_one_eq_mod,
        Nat.mod_eq_of_lt (by omega), Nat.zero_or]
    simp only [List.singleton_append, hb, hband, List.length_singleton]
    rw [if_pos hlt]
    norm_num
  · rw [if_neg hlt]
    have hor : msb ||| (2 ^ psize - 1) < 2 ^ 8 := Nat.or_lt_two_pow (by omega) (by omega)
    have hb : (msb ||| (2 ^ psize - 1)) % 256 = msb ||| (2 ^ psize - 1) :=
      Nat.mod_eq_of_lt (by omega)
    have hband : (msb ||| (2 ^ psize - 1)) &&& (2 ^ psize - 1) = 2 ^ psize - 1 := by
      rw [Nat.and_distrib_right, hmask, Nat.and_pow_two_sub_one_eq_mod,
        Nat.mod_eq_of_lt (by omega), Nat.zero_or]
    simp only [List.cons_append, hb, hband, List.length_cons]
    rw [if_neg (by omega)]
    have hloop := decodeIntLoop_encodeIntCont (v - (2 ^ psize - 1)) (2 ^ psize - 1) 0 1 rest
      (by simp only [pow_zero, mul_one]; omega)
    rw [hloop]
    simp only [pow_zero, mul_one, Prod.mk.injEq, Nat.cast_inj, and_true]
    omega

/-- C3, counterexample: the claimed round-trip for every `v < 2^28` fails at
`v = 10 * 2^20` (the 10 MiB safety bound of `DecodeInteger`): the encoder
emits five bytes but the decoder answers −1 instead of `(5, v)`. -/
theorem C3_counterexample :
    10 * 1024 * 1024 < 2 ^ 28 ∧
    (EncodeInteger 0 4 (10 * 1024 * 1024)).length = 5 ∧
    DecodeInteger (EncodeInteger 0 4 (10 * 1024 * 1024)) 4 = (-1, 0, []) ∧
    DecodeInteger (EncodeInteger 0 4 (10 * 1024 * 1024)) 4 ≠
      ((((EncodeInteger 0 4 (10 * 1024 * 1024)).length : Nat) : Int),
        10 * 1024 * 1024, []) := by
  refine ⟨by norm_num, ?_, ?_, ?_⟩ <;>
    simp +decide [EncodeInteger, encodeIntCont_eq, DecodeInteger, decodeIntLoop]

/-- C3, amended: for every prefix size `N ∈ {4,5,6,7}` and every value
`v < 10 * 2^20` (the decoder's `MAX_HPACK_INTEGER` bound; the claim's range
`[0, 2^28)` is too large), decoding the output of `EncodeInteger(sink, 0, N, v)`
with `DecodeInteger` at prefix size `N` yields `v` again and returns exactly
the number of bytes `EncodeInteger` emitted. -/
theorem C3_integer_roundtrip (psize v : Nat) (h4 : 4 ≤ psize) (h7 : psize ≤ 7)
    (hv : v < 10 * 1024 * 1024) :
    DecodeInteger (EncodeInteger 0 psize v) psize =
      ((((EncodeInteger 0 psize v).length : Nat) : Int), v, []) := by
  have h := DecodeInteger_EncodeInteger 0 psize v [] (by omega) h7 (by norm_num)
    (Nat.zero_and _) hv
  simpa using h

/-- Witness for C3's amended theorem at `N = 5`, `v = 1337`. -/
theorem C3_integer_roundtrip_witness :
    4 ≤ 5 ∧ 5 ≤ 7 ∧ 1337 < 10 * 1024 * 1024 ∧
    DecodeInteger (EncodeInteger 0 5 1337) 5 =
      ((((EncodeInteger 0 5 1337).length : Nat) : Int), 1337, []) :=
  ⟨by norm_num, by norm_num, by norm_num,
    C3_integer_roundtrip 5 1337 (by norm_num) (by norm_num) (by norm_num)⟩

/-! ### Index table

`IndexTable` (hpack.cpp lines 27-224).  The `base::BoundedQueue` is modelled
as a plain list, newest entry first (`bottom(0)` is the newest element,
`top()` the oldest; `push` prepends, `pop` drops the last element), and the
two `base::FlatMap`s as association lists whose `operator[]` overwrites and
whose `seek` returns the most recent binding. -/

/-- `base::FlatMap::seek`: the value bound to `k`, if any. -/
def mapSeek {α : Type} [DecidableEq α] (m : List (α × Nat)) (k : α) : Option Nat :=
  (m.find? (fun e => e.1 == k)).map (fun e => e.2)

/-- `base::FlatMap::erase`. -/
def mapErase {α : Type} [DecidableEq α] (m : List (α × Nat)) (k : α) : List (α × Nat) :=
  m.filter (fun e => !(e.1 == k))

/-- `base::FlatMap::operator[] = v`: overwrite the binding of `k`. -/
def mapInsert {α : Type} [DecidableEq α] (m : List (α × Nat)) (k : α) (v : Nat) :
    List (α × Nat) :=
  (k, v) :: mapErase m k

structure IndexTable where
  start_index : Nat
  need_indexes : Bool
  add_times : Nat
  max_size : Nat
  size : Nat
  queue : List Header
  header_index : List (Header × Nat)
  name_index : List (List Nat × Nat)
deriving DecidableEq, Repr

namespace IndexTable

/-- `IndexTable::HeaderAt` (hpack.cpp lines 96-101): `bottom(index - _start_index)`,
`none` when out of range. -/
def HeaderAt (t : IndexTable) (index : Nat) : Option Header :=
  if index < t.start_index then none
  else t.queue[index - t.start_index]?

/-- `IndexTable::GetIndexOfHeader` (hpack.cpp lines 103-112): 0 when the header
is not indexed, else `_start_index + (_add_times - *v) - 1`. -/
def GetIndexOfHeader (t : IndexTable) (h : Header) : Nat :=
  match mapSeek t.header_index h with
  | none => 0
  | some v => t.start_index + (t.add_times - v) - 1

/-- `IndexTable::GetIndexOfName` (hpack.cpp lines 114-123). -/
def GetIndexOfName (t : IndexTable) (n : List Nat) : Nat :=
  match mapSeek t.name_index n with
  | none => 0
  | some v => t.start_index + (t.add_times - v) - 1

/-- `IndexTable::end_index` (hpack.cpp line 129). -/
def end_index (t : IndexTable) : Nat := t.start_index + t.queue.length

/-- `IndexTable::RemoveHeaderFromIndexes` (hpack.cpp lines 147-161): erase the
two reverse mappings when they still point at the entry being evicted.  (The
C++ dereferences the `seek` result under a `DCHECK`; when the key is absent —
possible only for a header whose value is empty, which is never inserted into
`_header_index` — the release build reads garbage; we model the map as
unchanged, matching the no-erase outcome.) -/
def RemoveHeaderFromIndexes (t : IndexTable) (h : Header) (expected_id : Nat) :
    IndexTable :=
  if t.need_indexes = false then t
  else
    let hi := match mapSeek t.header_index h with
      | some v => if v = expected_id then mapErase t.header_index h else t.header_index
      | none => t.header_index
    let ni := match mapSeek t.name_index h.name with
      | some v => if v = expected_id then mapErase t.name_index h.name else t.name_index
      | none => t.name_index
    { t with header_index := hi, name_index := ni }

/-- `IndexTable::PopHeader` (hpack.cpp lines 136-145): drop the oldest entry,
whose insertion id is `_add_times - _header_queue.size()`. -/
def PopHeader (t : IndexTable) : IndexTable :=
  match t.queue.getLast? with
  | none => t
  | some h =>
    let entry_size := HeaderSize h
    let id := t.add_times - t.queue.length
    let t1 := t.RemoveHeaderFromIndexes h id
    { t1 with size := t1.size - entry_size, queue := t1.queue.dropLast }

theorem PopHeader_queue (t : IndexTable) : (t.PopHeader).queue = t.queue.dropLast := by
  unfold PopHeader RemoveHeaderFromIndexes
  match h : t.queue.getLast? with
  | none =>
    have : t.queue = [] := by
      cases hq : t.queue with
      | nil => rfl
      | cons a l => rw [hq] at h; simp [List.getLast?_concat] at h
    simp [this]
  | some x => by_cases hn : t.need_indexes = false <;> simp [hn]

/-- The eviction loop of `AddHeader` (hpack.cpp lines 167-169):
`while (!empty() && size() + entry_size > max_size()) PopHeader()`, with
structural fuel (each `PopHeader` shortens the queue, so `queue.length`
iterations suffice; `empty()` tests `size() == 0`, and when the queue is
empty but `size` is nonzero the C++ `PopHeader` reads past the queue — a
state that is unreachable since `size` is always the sum of the queued entry
sizes — and we keep the table unchanged in that case). -/
def evictLoopF : Nat → IndexTable → Nat → IndexTable
  | 0, t, _ => t
  | fuel + 1, t, entry_size =>
    if ¬ t.size = 0 ∧ t.size + entry_size > t.max_size then
      match t.queue with
      | [] => t
      | _ :: _ => evictLoopF fuel (t.PopHeader) entry_size
    else t

def evictLoop (t : IndexTable) (entry_size : Nat) : IndexTable :=
  evictLoopF t.queue.length t entry_size

/-- `IndexTable::AddHeader` (hpack.cpp lines 163-190). -/
def AddHeader (t : IndexTable) (h : Header) : IndexTable :=
  let entry_size := HeaderSize h
  let t1 := t.evictLoop entry_size
  if entry_size > t1.max_size then t1
  else
    let id := t1.add_times
    { t1 with
      size := t1.size + entry_size
      queue := h :: t1.queue
      add_times := t1.add_times + 1
      header_index :=
        if t1.need_indexes ∧ h.value ≠ [] then mapInsert t1.header_index h id
        else t1.header_index
      name_index :=
        if t1.need_indexes then mapInsert t1.name_index h.name id
        else t1.name_index }

/-- `UINT_MAX`, the `_max_size` of the static table (hpack.cpp line 56). -/
def UINT_MAX : Nat := 4294967295

structure IndexTableOptions where
  max_size : Nat
  start_index : Nat
  static_table : List Header
  need_indexes : Bool

/-- `IndexTable::Init` (hpack.cpp lines 52-94): fresh table, then the static
entries (if any) inserted in reverse order.  A static table gets
`_max_size = UINT_MAX`. -/
def Init (options : IndexTableOptions) : IndexTable :=
  let t0 : IndexTable := {
    start_index := options.start_index
    need_indexes := options.need_indexes
    add_times := 0
    max_size := if options.static_table.length > 0 then UINT_MAX else options.max_size
    size := 0
    queue := []
    header_index := []
    name_index := [] }
  options.static_table.reverse.foldl AddHeader t0

end IndexTable

/-! ### Index-table invariants -/

theorem mapSeek_nil {α : Type} [DecidableEq α] (k : α) : mapSeek ([] : List (α × Nat)) k = none := rfl

theorem mapSeek_cons {α : Type} [DecidableEq α] (e : α × Nat) (m : List (α × Nat)) (k : α) :
    mapSeek (e :: m) k = if e.1 = k then some e.2 else mapSeek m k := by
  unfold mapSeek
  by_cases h : e.1 = k
  · rw [List.find?_cons_of_pos _ (by simp [h]), if_pos h]
    rfl
  · rw [List.find?_cons_of_neg _ (by simp [h]), if_neg h]

theorem mapSeek_mapErase {α : Type} [DecidableEq α] (m : List (α × Nat)) (k k' : α) :
    mapSeek (mapErase m k) k' = if k' = k then none else mapSeek m k' := by
  induction m with
  | nil =>
    unfold mapErase
    simp [mapSeek_nil]
  | cons e t ih =>
    unfold mapErase at ih ⊢
    rw [List.filter_cons]
    by_cases he : e.1 = k
    · have hb : (!(e.1 == k)) = false := by simp [he]
      rw [hb, if_neg (by simp), ih]
      by_cases hkk : k' = k
      · rw [if_pos hkk, if_pos hkk]
      · rw [if_neg hkk, if_neg hkk, mapSeek_cons]
        have hne : ¬ e.1 = k' := by
          rw [he]; exact fun hc => hkk hc.symm
        rw [if_neg hne]
    · have hb : (!(e.1 == k)) = true := by simp [he]
      rw [hb, if_pos rfl, mapSeek_cons, mapSeek_cons, ih]
      by_cases hkk : k' = k
      · subst hkk
        rw [if_neg he, if_pos rfl, if_pos rfl]
      · rw [if_neg hkk, if_neg hkk]

theorem mapSeek_mapInsert {α : Type} [DecidableEq α] (m : List (α × Nat)) (k k' : α) (v : Nat) :
    mapSeek (mapInsert m k v) k' = if k' = k then some v else mapSeek m k' := by
  unfold mapInsert
  rw [mapSeek_cons, mapSeek_mapErase]
  by_cases h : k' = k
  · simp [h]
  · have : ¬ k = k' := fun hc => h hc.symm
    simp [h, this]

/-- Sum of RFC 7541 entry sizes over a queue. -/
def sumSize (q : List Header) : Nat := (q.map HeaderSize).sum

theorem sumSize_nil : sumSize [] = 0 := rfl

theorem sumSize_cons (h : Header) (q : List Header) :
    sumSize (h :: q) = HeaderSize h + sumSize q := by
  unfold sumSize
  simp [List.sum_cons]

theorem sumSize_dropLast (q : List Header) (hne : q ≠ []) :
    sumSize q = sumSize q.dropLast + HeaderSize (q.getLast hne) := by
  conv_lhs => rw [← List.dropLast_append_getLast hne]
  unfold sumSize
  simp

theorem sumSize_pos_of_mem (q : List Header) (h : Header) (hm : h ∈ q) : 0 < sumSize q := by
  induction q with
  | nil => cases hm
  | cons a l ih =>
    rw [sumSize_cons]
    have : 0 < HeaderSize a := by unfold HeaderSize; omega
    omega

namespace IndexTable

/-- Structural well-formedness of an `IndexTable`: `_size` is the sum of the
queued entry sizes, stays within `_max_size`, and `_add_times` dominates the
queue length. -/
structure WF (t : IndexTable) : Prop where
  size_eq : t.size = sumSize t.queue
  size_le : t.size ≤ t.max_size
  len_le : t.queue.length ≤ t.add_times

theorem Remove_queue (t : IndexTable) (h : Header) (id : Nat) :
    (t.RemoveHeaderFromIndexes h id).queue = t.queue := by
  unfold RemoveHeaderFromIndexes
  split <;> rfl

theorem Remove_size (t : IndexTable) (h : Header) (id : Nat) :
    (t.RemoveHeaderFromIndexes h id).size = t.size := by
  unfold RemoveHeaderFromIndexes
  split <;> rfl

theorem Remove_add_times (t : IndexTable) (h : Header) (id : Nat) :
    (t.RemoveHeaderFromIndexes h id).add_times = t.add_times := by
  unfold RemoveHeaderFromIndexes
  split <;> rfl

theorem Remove_max_size (t : IndexTable) (h : Header) (id : Nat) :
    (t.RemoveHeaderFromIndexes h id).max_size = t.max_size := by
  unfold RemoveHeaderFromIndexes
  split <;> rfl

theorem Remove_start_index (t : IndexTable) (h : Header) (id : Nat) :
    (t.RemoveHeaderFromIndexes h id).start_index = t.start_index := by
  unfold RemoveHeaderFromIndexes
  split <;> rfl

theorem Remove_need_indexes (t : IndexTable) (h : Header) (id : Nat) :
    (t.RemoveHeaderFromIndexes h id).need_indexes = t.need_indexes := by
  unfold RemoveHeaderFromIndexes
  split <;> rfl

theorem Remove_header_index (t : IndexTable) (h : Header) (id : Nat) :
    (t.RemoveHeaderFromIndexes h id).header_index =
      if t.need_indexes = true ∧ mapSeek t.header_index h = some id
      then mapErase t.header_index h else t.header_index := by
  unfold RemoveHeaderFromIndexes
  by_cases hn : t.need_indexes = false
  · simp [hn]
  · simp only [Bool.not_eq_false] at hn
    match hs : mapSeek t.header_index h with
    | none => simp [hn, hs]
    | some v =>
      by_cases hv : v = id
      · simp [hn, hs, hv]
      · simp [hn, hs, hv]

theorem Remove_name_index (t : IndexTable) (h : Header) (id : Nat) :
    (t.RemoveHeaderFromIndexes h id).name_index =
      if t.need_indexes = true ∧ mapSeek t.name_index h.name = some id
      then mapErase t.name_index h.name else t.name_index := by
  unfold RemoveHeaderFromIndexes
  by_cases hn : t.need_indexes = false
  · simp [hn]
  · simp only [Bool.not_eq_false] at hn
    match hs : mapSeek t.name_index h.name with
    | none => simp [hn, hs]
    | some v =>
      by_cases hv : v = id
      · simp [hn, hs, hv]
      · simp [hn, hs, hv]

theorem PopHeader_eq_of_ne (t : IndexTable) (hne : t.queue ≠ []) :
    t.PopHeader =
      { t.RemoveHeaderFromIndexes (t.queue.getLast hne) (t.add_times - t.queue.length) with
        size := t.size - HeaderSize (t.queue.getLast hne)
        queue := t.queue.dropLast } := by
  unfold PopHeader
  rw [List.getLast?_eq_getLast t.queue hne]
  have h1 := Remove_size t (t.queue.getLast hne) (t.add_times - t.queue.length)
  have h2 := Remove_queue t (t.queue.getLast hne) (t.add_times - t.queue.length)
  simp only [h1, h2]

theorem PopHeader_size_of_ne (t : IndexTable) (hne : t.queue ≠ []) :
    (t.PopHeader).size = t.size - HeaderSize (t.queue.getLast hne) := by
  rw [PopHeader_eq_of_ne t hne]

theorem PopHeader_add_times (t : IndexTable) : (t.PopHeader).add_times = t.add_times := by
  unfold PopHeader
  match h : t.queue.getLast? with
  | none => rfl
  | some x => simp [Remove_add_times]

theorem PopHeader_max_size (t : IndexTable) : (t.PopHeader).max_size = t.max_size := by
  unfold PopHeader
  match h : t.queue.getLast? with
  | none => rfl
  | some x => simp [Remove_max_size]

theorem PopHeader_start_index (t : IndexTable) : (t.PopHeader).start_index = t.start_index := by
  unfold PopHeader
  match h : t.queue.getLast? with
  | none => rfl
  | some x => simp [Remove_start_index]

theorem PopHeader_need_indexes (t : IndexTable) : (t.PopHeader).need_indexes = t.need_indexes := by
  unfold PopHeader
  match h : t.queue.getLast? with
  | none => rfl
  | some x => simp [Remove_need_indexes]

theorem WF.popWF {t : IndexTable} (w : WF t) : WF t.PopHeader := by
  by_cases hne : t.queue = []
  · have : t.PopHeader = t := by
      unfold PopHeader
      rw [hne]
      rfl
    rw [this]; exact w
  · have hsz := PopHeader_size_of_ne t hne
    have hq := PopHeader_queue t
    have hsum := sumSize_dropLast t.queue hne
    constructor
    · rw [hsz, hq, w.size_eq, hsum]
      omega
    · rw [hsz, PopHeader_max_size]
      have := w.size_le
      omega
    · rw [hq, PopHeader_add_times, List.length_dropLast]
      have := w.len_le
      omega

theorem evictLoop_eq_stop (t : IndexTable) (e : Nat)
    (h : ¬ (¬ t.size = 0 ∧ t.size + e > t.max_size)) : t.evictLoop e = t := by
  unfold evictLoop
  match hl : t.queue.length with
  | 0 => rfl
  | n + 1 =>
    show (if ¬ t.size = 0 ∧ t.size + e > t.max_size then _ else t) = t
    rw [if_neg h]

theorem evictLoop_eq_nil (t : IndexTable) (e : Nat) (hq : t.queue = []) :
    t.evictLoop e = t := by
  unfold evictLoop
  rw [hq]
  rfl

theorem evictLoop_eq_step (t : IndexTable) (e : Nat)
    (h : ¬ t.size = 0 ∧ t.size + e > t.max_size) (a : Header) (l : List Header)
    (hq : t.queue = a :: l) : t.evictLoop e = (t.PopHeader).evictLoop e := by
  unfold evictLoop
  rw [hq]
  show (if ¬ t.size = 0 ∧ t.size + e > t.max_size then
      match t.queue with
      | [] => t
      | _ :: _ => evictLoopF (a :: l).length.pred (t.PopHeader) e
    else t) = _
  rw [if_pos h, hq]
  have hlen : (t.PopHeader).queue.length = (a :: l).length.pred := by
    rw [PopHeader_queue, List.length_dropLast, hq]
    rfl
  rw [← hlen]

/-- Any property preserved by `PopHeader` on non-empty queues is preserved by
the eviction loop. -/
theorem evictLoop_pres (P : IndexTable → Prop)
    (hP : ∀ t : IndexTable, t.queue ≠ [] → P t → P t.PopHeader) :
    ∀ (n : Nat) (t : IndexTable), t.queue.length ≤ n → ∀ e, P t → P (t.evictLoop e) := by
  intro n
  induction n with
  | zero =>
    intro t hlen e hp
    have hq : t.queue = [] := List.length_eq_zero.mp (by omega)
    rw [evictLoop_eq_nil t e hq]
    exact hp
  | succ n ih =>
    intro t hlen e hp
    by_cases hcond : ¬ t.size = 0 ∧ t.size + e > t.max_size
    · match hq : t.queue with
      | [] =>
        rw [evictLoop_eq_nil t e hq]
        exact hp
      | a :: l =>
        rw [evictLoop_eq_step t e hcond a l hq]
        refine ih t.PopHeader ?_ e (hP t (by rw [hq]; simp) hp)
        rw [PopHeader_queue, List.length_dropLast, hq]
        rw [hq] at hlen
        simp only [List.length_cons] at hlen ⊢
        omega
    · rw [evictLoop_eq_stop t e hcond]
      exact hp

theorem WF.evictWF {t : IndexTable} (w : WF t) (e : Nat) : WF (t.evictLoop e) :=
  evictLoop_pres WF (fun _ _ ws => ws.popWF) t.queue.length t le_rfl e w

theorem evictLoop_add_times (t : IndexTable) (e : Nat) :
    (t.evictLoop e).add_times = t.add_times :=
  evictLoop_pres (fun s => s.add_times = t.add_times)
    (fun s _ hs => by
      show s.PopHeader.add_times = t.add_times
      rw [PopHeader_add_times]
      exact hs)
    t.queue.length t le_rfl e rfl

theorem evictLoop_max_size (t : IndexTable) (e : Nat) :
    (t.evictLoop e).max_size = t.max_size :=
  evictLoop_pres (fun s => s.max_size = t.max_size)
    (fun s _ hs => by
      show s.PopHeader.max_size = t.max_size
      rw [PopHeader_max_size]
      exact hs)
    t.queue.length t le_rfl e rfl

theorem evictLoop_start_index (t : IndexTable) (e : Nat) :
    (t.evictLoop e).start_index = t.start_index :=
  evictLoop_pres (fun s => s.start_index = t.start_index)
    (fun s _ hs => by
      show s.PopHeader.start_index = t.start_index
      rw [PopHeader_start_index]
      exact hs)
    t.queue.length t le_rfl e rfl

theorem evictLoop_need_indexes (t : IndexTable) (e : Nat) :
    (t.evictLoop e).need_indexes = t.need_indexes :=
  evictLoop_pres (fun s => s.need_indexes = t.need_indexes)
    (fun s _ hs => by
      show s.PopHeader.need_indexes = t.need_indexes
      rw [PopHeader_need_indexes]
      exact hs)
    t.queue.length t le_rfl e rfl

/-- On exit the eviction loop's guard is false: the table is empty or the new
entry fits. -/
theorem evictLoop_post (t : IndexTable) (e : Nat) (w : WF t) :
    (t.evictLoop e).size = 0 ∨ (t.evictLoop e).size + e ≤ (t.evictLoop e).max_size := by
  generalize hn : t.queue.length = n
  induction n generalizing t with
  | zero =>
    have hq : t.queue = [] := List.length_eq_zero.mp hn
    rw [evictLoop_eq_nil t e hq]
    have h0 : t.size = 0 := by
      rw [w.size_eq, hq, sumSize_nil]
    omega
  | succ n ih =>
    by_cases hcond : ¬ t.size = 0 ∧ t.size + e > t.max_size
    · have hne : t.queue ≠ [] := by
        intro hq0
        rw [hq0] at hn
        simp at hn
      obtain ⟨a, l, hq⟩ := List.exists_cons_of_ne_nil hne
      rw [evictLoop_eq_step t e hcond a l hq]
      refine ih t.PopHeader w.popWF ?_
      rw [PopHeader_queue, List.length_dropLast, hq]
      rw [hq] at hn
      simp only [List.length_cons] at hn ⊢
      omega
    · rw [evictLoop_eq_stop t e hcond]
      omega

/-- The eviction loop keeps a (newest-first) prefix of the queue, and every
longer prefix would have overflowed `max_size` together with the new entry. -/
theorem evictLoop_take (t : IndexTable) (e : Nat) (w : WF t) :
    ∃ m, m ≤ t.queue.length ∧ (t.evictLoop e).queue = t.queue.take m ∧
      ∀ j, m < j → j ≤ t.queue.length → sumSize (t.queue.take j) + e > t.max_size := by
  generalize hn : t.queue.length = n
  induction n generalizing t with
  | zero =>
    have hq : t.queue = [] := List.length_eq_zero.mp hn
    rw [evictLoop_eq_nil t e hq]
    exact ⟨0, by omega, by simp [hq], by omega⟩
  | succ n ih =>
    by_cases hcond : ¬ t.size = 0 ∧ t.size + e > t.max_size
    · have hne : t.queue ≠ [] := by
        intro hq0
        rw [hq0] at hn
        simp at hn
      obtain ⟨a, l, hq⟩ := List.exists_cons_of_ne_nil hne
      rw [evictLoop_eq_step t e hcond a l hq]
      have hwp : WF t.PopHeader := w.popWF
      have hlen : (t.PopHeader).queue.length = n := by
        rw [PopHeader_queue, List.length_dropLast, hq]
        rw [hq] at hn
        simp only [List.length_cons] at hn ⊢
        omega
      obtain ⟨m, hm, hqeq, hmin⟩ := ih t.PopHeader hwp hlen
      have hdrop : (t.PopHeader).queue = t.queue.take n := by
        rw [PopHeader_queue, List.dropLast_eq_take, hn]
        simp
      refine ⟨m, by omega, ?_, ?_⟩
      · rw [hqeq, hdrop, List.take_take]
        congr 1
        omega
      · intro j hj1 hj2
        by_cases hjn : j ≤ n
        · have hj := hmin j hj1 (by omega)
          rw [hdrop, List.take_take, PopHeader_max_size] at hj
          have hminj : min j n = j := by omega
          rw [hminj] at hj
          exact hj
        · have hjeq : j = n + 1 := by omega
          rw [hjeq, ← hn, List.take_length]
          rw [← w.size_eq]
          omega
    · rw [evictLoop_eq_stop t e hcond]
      exact ⟨t.queue.length, by omega, by rw [List.take_length], by omega⟩

/-- Unconditional unfolding of the eviction loop (for concrete evaluation). -/
theorem evictLoop_unfold (t : IndexTable) (e : Nat) :
    t.evictLoop e =
      if ¬ t.size = 0 ∧ t.size + e > t.max_size then
        match t.queue with
        | [] => t
        | _ :: _ => (t.PopHeader).evictLoop e
      else t := by
  by_cases hcond : ¬ t.size = 0 ∧ t.size + e > t.max_size
  · cases hq : t.queue with
    | nil =>
      rw [evictLoop_eq_nil t e hq, if_pos hcond]
    | cons a l =>
      rw [evictLoop_eq_step t e hcond a l hq, if_pos hcond]
  · rw [evictLoop_eq_stop t e hcond, if_neg hcond]

theorem AddHeader_max_size (t : IndexTable) (h : Header) :
    (t.AddHeader h).max_size = t.max_size := by
  simp only [AddHeader]
  split
  · rw [evictLoop_max_size]
  · show (t.evictLoop (HeaderSize h)).max_size = t.max_size
    rw [evictLoop_max_size]

theorem AddHeader_start_index (t : IndexTable) (h : Header) :
    (t.AddHeader h).start_index = t.start_index := by
  simp only [AddHeader]
  split
  · rw [evictLoop_start_index]
  · show (t.evictLoop (HeaderSize h)).start_index = t.start_index
    rw [evictLoop_start_index]

theorem AddHeader_need_indexes (t : IndexTable) (h : Header) :
    (t.AddHeader h).need_indexes = t.need_indexes := by
  simp only [AddHeader]
  split
  · rw [evictLoop_need_indexes]
  · show (t.evictLoop (HeaderSize h)).need_indexes = t.need_indexes
    rw [evictLoop_need_indexes]

theorem WF.addWF {t : IndexTable} (w : WF t) (h : Header) : WF (t.AddHeader h) := by
  simp only [AddHeader]
  have w1 : WF (t.evictLoop (HeaderSize h)) := w.evictWF (HeaderSize h)
  have hpost := evictLoop_post t (HeaderSize h) w
  split
  · exact w1
  · rename_i hfit
    constructor
    · show (t.evictLoop (HeaderSize h)).size + HeaderSize h =
        sumSize (h :: (t.evictLoop (HeaderSize h)).queue)
      rw [sumSize_cons, w1.size_eq]
      omega
    · show (t.evictLoop (HeaderSize h)).size + HeaderSize h ≤
        (t.evictLoop (HeaderSize h)).max_size
      omega
    · show (h :: (t.evictLoop (HeaderSize h)).queue).length ≤
        (t.evictLoop (HeaderSize h)).add_times + 1
      have := w1.len_le
      simp only [List.length_cons]
      omega

/-- `hs.foldl AddHeader t`: the state after a sequence of `AddHeader` calls. -/
def addAll (t : IndexTable) (hs : List Header) : IndexTable := hs.foldl AddHeader t

theorem WF.addAllWF {t : IndexTable} (w : WF t) (hs : List Header) : WF (t.addAll hs) := by
  induction hs generalizing t with
  | nil => exact w
  | cons a l ih => exact ih (w.addWF a)

theorem addAll_start_index (t : IndexTable) (hs : List Header) :
    (t.addAll hs).start_index = t.start_index := by
  induction hs generalizing t with
  | nil => rfl
  | cons a l ih =>
    show ((t.AddHeader a).addAll l).start_index = t.start_index
    rw [ih, AddHeader_start_index]

theorem addAll_need_indexes (t : IndexTable) (hs : List Header) :
    (t.addAll hs).need_indexes = t.need_indexes := by
  induction hs generalizing t with
  | nil => rfl
  | cons a l ih =>
    show ((t.AddHeader a).addAll l).need_indexes = t.need_indexes
    rw [ih, AddHeader_need_indexes]

theorem sumSize_eq_zero_iff (q : List Header) : sumSize q = 0 ↔ q = [] := by
  cases q with
  | nil => simp [sumSize_nil]
  | cons a l =>
    rw [sumSize_cons]
    unfold HeaderSize
    simp

/-- An `Init` result is a fold of `AddHeader` over a well-formed empty table,
so it is well-formed. -/
theorem WF.initWF (opts : IndexTableOptions) : WF (Init opts) := by
  unfold Init
  exact WF.addAllWF (by constructor <;> simp [sumSize_nil]) _

/-- Invariant tying the two reverse-lookup maps to the queue: every binding
points at a queued copy of its key (name-and-value for `_header_index`,
name-only for `_name_index`); the binding records the latest insertion of the
key (the pointed-at position is the lowest among all copies); `_header_index`
never holds headers with empty values but holds every queued header with a
non-empty value; both maps are empty when lookup indexes are disabled. -/
structure MapsInv (t : IndexTable) : Prop where
  hkey : ∀ k id, mapSeek t.header_index k = some id → k.value ≠ []
  hpt : ∀ k id, mapSeek t.header_index k = some id →
    id < t.add_times ∧ t.add_times - id ≤ t.queue.length ∧
    t.queue[t.add_times - id - 1]? = some k
  hmax : ∀ k id, mapSeek t.header_index k = some id →
    ∀ j, t.queue[j]? = some k → t.add_times - id - 1 ≤ j
  hcomp : t.need_indexes = true →
    ∀ k, k ∈ t.queue → k.value ≠ [] → mapSeek t.header_index k ≠ none
  npt : ∀ n id, mapSeek t.name_index n = some id →
    id < t.add_times ∧ t.add_times - id ≤ t.queue.length ∧
    ∃ k, t.queue[t.add_times - id - 1]? = some k ∧ k.name = n
  nmax : ∀ n id, mapSeek t.name_index n = some id →
    ∀ j k, t.queue[j]? = some k → k.name = n → t.add_times - id - 1 ≤ j
  hemp : t.need_indexes = false → t.header_index = [] ∧ t.name_index = []

theorem PopHeader_header_index_of_ne (t : IndexTable) (hne : t.queue ≠ []) :
    (t.PopHeader).header_index =
      if t.need_indexes = true ∧
          mapSeek t.header_index (t.queue.getLast hne) =
            some (t.add_times - t.queue.length)
      then mapErase t.header_index (t.queue.getLast hne) else t.header_index := by
  rw [PopHeader_eq_of_ne t hne]
  exact Remove_header_index t _ _

theorem PopHeader_name_index_of_ne (t : IndexTable) (hne : t.queue ≠ []) :
    (t.PopHeader).name_index =
      if t.need_indexes = true ∧
          mapSeek t.name_index (t.queue.getLast hne).name =
            some (t.add_times - t.queue.length)
      then mapErase t.name_index (t.queue.getLast hne).name else t.name_index := by
  rw [PopHeader_eq_of_ne t hne]
  exact Remove_name_index t _ _

theorem MapsInv.popMI {t : IndexTable} (w : WF t) (mi : MapsInv t) : MapsInv t.PopHeader := by
  by_cases hne : t.queue = []
  · have hid : t.PopHeader = t := by
      unfold PopHeader
      rw [hne]
      rfl
    rw [hid]
    exact mi
  · have hgL : t.queue[t.queue.length - 1]? = some (t.queue.getLast hne) := by
      rw [← List.getLast?_eq_getElem?, List.getLast?_eq_getLast t.queue hne]
    have hL : 0 < t.queue.length := List.length_pos.mpr hne
    have hLA : t.queue.length ≤ t.add_times := w.len_le
    have hq' : (t.PopHeader).queue = t.queue.dropLast := PopHeader_queue t
    have hA' : (t.PopHeader).add_times = t.add_times := PopHeader_add_times t
    have hN' : (t.PopHeader).need_indexes = t.need_indexes := PopHeader_need_indexes t
    have hHI := PopHeader_header_index_of_ne t hne
    have hNI := PopHeader_name_index_of_ne t hne
    have hdrop : ∀ j, (t.queue.dropLast)[j]? =
        if j < t.queue.length - 1 then t.queue[j]? else none :=
      fun j => List.getElem?_dropLast t.queue j
    have hneed_of_h : ∀ k id, mapSeek t.header_index k = some id →
        t.need_indexes = true := by
      intro k id hs
      cases hvn : t.need_indexes with
      | false =>
        rw [(mi.hemp hvn).1] at hs
        rw [mapSeek_nil] at hs
        cases hs
      | true => rfl
    have hneed_of_n : ∀ n id, mapSeek t.name_index n = some id →
        t.need_indexes = true := by
      intro n id hs
      cases hvn : t.need_indexes with
      | false =>
        rw [(mi.hemp hvn).2] at hs
        rw [mapSeek_nil] at hs
        cases hs
      | true => rfl
    have hsurv : ∀ k id, mapSeek (t.PopHeader).header_index k = some id →
        mapSeek t.header_index k = some id ∧
          t.add_times - id - 1 < t.queue.length - 1 := by
      intro k id hs
      rw [hHI] at hs
      have hold : mapSeek t.header_index k = some id := by
        by_cases hc : t.need_indexes = true ∧
            mapSeek t.header_index (t.queue.getLast hne) =
              some (t.add_times - t.queue.length)
        · rw [if_pos hc, mapSeek_mapErase] at hs
          by_cases hk : k = t.queue.getLast hne
          · rw [if_pos hk] at hs
            cases hs
          · rw [if_neg hk] at hs
            exact hs
        · rw [if_neg hc] at hs
          exact hs
      refine ⟨hold, ?_⟩
      obtain ⟨hid1, hid2, hpos⟩ := mi.hpt k id hold
      by_cases hpose : t.add_times - id - 1 = t.queue.length - 1
      · exfalso
        rw [hpose, hgL] at hpos
        have hkg : k = t.queue.getLast hne := (Option.some.inj hpos).symm
        have hid0 : id = t.add_times - t.queue.length := by omega
        have hc : t.need_indexes = true ∧
            mapSeek t.header_index (t.queue.getLast hne) =
              some (t.add_times - t.queue.length) := by
          refine ⟨hneed_of_h k id hold, ?_⟩
          rw [← hkg, hold, hid0]
        rw [if_pos hc, mapSeek_mapErase, if_pos hkg] at hs
        cases hs
      · omega
    have nsurv : ∀ n id, mapSeek (t.PopHeader).name_index n = some id →
        mapSeek t.name_index n = some id ∧
          t.add_times - id - 1 < t.queue.length - 1 := by
      intro n id hs
      rw [hNI] at hs
      have hold : mapSeek t.name_index n = some id := by
        by_cases hc : t.need_indexes = true ∧
            mapSeek t.name_index (t.queue.getLast hne).name =
              some (t.add_times - t.queue.length)
        · rw [if_pos hc, mapSeek_mapErase] at hs
          by_cases hk : n = (t.queue.getLast hne).name
          · rw [if_pos hk] at hs
            cases hs
          · rw [if_neg hk] at hs
            exact hs
        · rw [if_neg hc] at hs
          exact hs
      refine ⟨hold, ?_⟩
      obtain ⟨hid1, hid2, k, hpos, hname⟩ := mi.npt n id hold
      by_cases hpose : t.add_times - id - 1 = t.queue.length - 1
      · exfalso
        rw [hpose, hgL] at hpos
        have hkg : k = t.queue.getLast hne := (Option.some.inj hpos).symm
        have hid0 : id = t.add_times - t.queue.length := by omega
        have hc : t.need_indexes = true ∧
            mapSeek t.name_index (t.queue.getLast hne).name =
              some (t.add_times - t.queue.length) := by
          refine ⟨hneed_of_n n id hold, ?_⟩
          rw [← hkg, hname, hold, hid0]
        rw [if_pos hc, mapSeek_mapErase, if_pos (by rw [← hkg, hname])] at hs
        cases hs
      · omega
    constructor
    · intro k id hs
      exact mi.hkey k id (hsurv k id hs).1
    · intro k id hs
      obtain ⟨hold, hlt⟩ := hsurv k id hs
      obtain ⟨h1, h2, h3⟩ := mi.hpt k id hold
      rw [hA', hq', List.length_dropLast]
      refine ⟨h1, by omega, ?_⟩
      rw [hdrop, if_pos hlt]
      exact h3
    · intro k id hs j hj
      obtain ⟨hold, hlt⟩ := hsurv k id hs
      rw [hq', hdrop] at hj
      rw [hA']
      by_cases hjl : j < t.queue.length - 1
      · rw [if_pos hjl] at hj
        exact mi.hmax k id hold j hj
      · rw [if_neg hjl] at hj
        cases hj
    · intro hneedT k hk hv
      rw [hN'] at hneedT
      rw [hq'] at hk
      obtain ⟨j, hj⟩ := List.mem_iff_getElem?.mp hk
      rw [hdrop] at hj
      by_cases hjl : j < t.queue.length - 1
      · rw [if_pos hjl] at hj
        have hkq : k ∈ t.queue := List.mem_iff_getElem?.mpr ⟨j, hj⟩
        have hsk := mi.hcomp hneedT k hkq hv
        match hsome : mapSeek t.header_index k with
        | none => exact absurd hsome hsk
        | some id =>
          rw [hHI]
          by_cases hc : t.need_indexes = true ∧
              mapSeek t.header_index (t.queue.getLast hne) =
                some (t.add_times - t.queue.length)
          · rw [if_pos hc, mapSeek_mapErase]
            by_cases hkg : k = t.queue.getLast hne
            · exfalso
              have hj' : t.queue[j]? = some (t.queue.getLast hne) := by
                rw [← hkg]
                exact hj
              have := mi.hmax _ _ hc.2 j hj'
              omega
            · rw [if_neg hkg, hsome]
              simp
          · rw [if_neg hc, hsome]
            simp
      · rw [if_neg hjl] at hj
        cases hj
    · intro n id hs
      obtain ⟨hold, hlt⟩ := nsurv n id hs
      obtain ⟨h1, h2, k, h3, h4⟩ := mi.npt n id hold
      rw [hA', hq', List.length_dropLast]
      refine ⟨h1, by omega, k, ?_, h4⟩
      rw [hdrop, if_pos hlt]
      exact h3
    · intro n id hs j k hj hkn
      obtain ⟨hold, hlt⟩ := nsurv n id hs
      rw [hq', hdrop] at hj
      rw [hA']
      by_cases hjl : j < t.queue.length - 1
      · rw [if_pos hjl] at hj
        exact mi.nmax n id hold j k hj hkn
      · rw [if_neg hjl] at hj
        cases hj
    · intro hf
      rw [hN'] at hf
      have hmap := mi.hemp hf
      rw [hHI, hNI]
      rw [if_neg (by simp [hf]), if_neg (by simp [hf])]
      exact hmap

theorem MapsInv.push (t1 : IndexTable) (h : Header) (w1 : WF t1) (mi1 : MapsInv t1) :
    MapsInv ⟨t1.start_index, t1.need_indexes, t1.add_times + 1, t1.max_size,
      t1.size + HeaderSize h, h :: t1.queue,
      (if t1.need_indexes = true ∧ h.value ≠ [] then
        mapInsert t1.header_index h t1.add_times
       else t1.header_index),
      (if t1.need_indexes = true then mapInsert t1.name_index h.name t1.add_times
       else t1.name_index)⟩ := by
  have hLA := w1.len_le
  -- the maps are empty when indexes are disabled
  have hno_h : ∀ k id, t1.need_indexes = false →
      ¬ mapSeek t1.header_index k = some id := by
    intro k id hf hs
    rw [(mi1.hemp hf).1, mapSeek_nil] at hs
    cases hs
  have hno_n : ∀ n id, t1.need_indexes = false →
      ¬ mapSeek t1.name_index n = some id := by
    intro n id hf hs
    rw [(mi1.hemp hf).2, mapSeek_nil] at hs
    cases hs
  -- old header bindings never bind h when h.value is empty
  have hnoth : ∀ id, h.value = [] → ¬ mapSeek t1.header_index h = some id := by
    intro id hv hs
    exact mi1.hkey h id hs hv
  -- analysis of a binding in the new header map
  have hcase : ∀ k id, mapSeek
      (if t1.need_indexes = true ∧ h.value ≠ [] then
        mapInsert t1.header_index h t1.add_times
       else t1.header_index) k = some id →
      (k = h ∧ id = t1.add_times ∧ h.value ≠ []) ∨
      (mapSeek t1.header_index k = some id ∧ k ≠ h) := by
    intro k id hs
    by_cases hc : t1.need_indexes = true ∧ h.value ≠ []
    · rw [if_pos hc, mapSeek_mapInsert] at hs
      by_cases hk : k = h
      · rw [if_pos hk] at hs
        exact Or.inl ⟨hk, (Option.some.inj hs).symm, hc.2⟩
      · rw [if_neg hk] at hs
        exact Or.inr ⟨hs, hk⟩
    · rw [if_neg hc] at hs
      have hk : k ≠ h := by
        intro hkh
        subst hkh
        cases hn : t1.need_indexes with
        | false => exact hno_h k id hn hs
        | true =>
          have hv : k.value = [] := by
            by_cases hv' : k.value = []
            · exact hv'
            · exact absurd ⟨hn, hv'⟩ hc
          exact hnoth id hv (by exact hs)
      exact Or.inr ⟨hs, hk⟩
  have ncase : ∀ n id, mapSeek
      (if t1.need_indexes = true then mapInsert t1.name_index h.name t1.add_times
       else t1.name_index) n = some id →
      (n = h.name ∧ id = t1.add_times) ∨
      (mapSeek t1.name_index n = some id ∧ n ≠ h.name) := by
    intro n id hs
    by_cases hc : t1.need_indexes = true
    · rw [if_pos hc, mapSeek_mapInsert] at hs
      by_cases hk : n = h.name
      · rw [if_pos hk] at hs
        exact Or.inl ⟨hk, (Option.some.inj hs).symm⟩
      · rw [if_neg hk] at hs
        exact Or.inr ⟨hs, hk⟩
    · have hcf : t1.need_indexes = false := by
        cases hn : t1.need_indexes with
        | false => rfl
        | true => exact absurd hn hc
      rw [if_neg hc] at hs
      exact absurd hs (hno_n n id hcf)
  refine ⟨?_, ?_, ?_, ?_, ?_, ?_, ?_⟩ <;> dsimp only
  · -- hkey
    intro k id hs
    rcases hcase k id hs with ⟨hk, _, hv⟩ | ⟨hold, _⟩
    · rw [hk]
      exact hv
    · exact mi1.hkey k id hold
  · -- hpt
    intro k id hs
    rcases hcase k id hs with ⟨hk, hid, _⟩ | ⟨hold, _⟩
    · subst hid
      refine ⟨by omega, by simp, ?_⟩
      have hp0 : t1.add_times + 1 - t1.add_times - 1 = 0 := by omega
      rw [hp0, List.getElem?_cons_zero, hk]
    · obtain ⟨h1, h2, h3⟩ := mi1.hpt k id hold
      refine ⟨by omega, by simp only [List.length_cons]; omega, ?_⟩
      have hp : t1.add_times + 1 - id - 1 = (t1.add_times - id - 1) + 1 := by omega
      rw [hp, List.getElem?_cons_succ]
      exact h3
  · -- hmax
    intro k id hs j hj
    rcases hcase k id hs with ⟨hk, hid, _⟩ | ⟨hold, hne⟩
    · subst hid
      omega
    · match j with
      | 0 =>
        rw [List.getElem?_cons_zero] at hj
        exact absurd (Option.some.inj hj).symm hne
      | j + 1 =>
        rw [List.getElem?_cons_succ] at hj
        have := mi1.hmax k id hold j hj
        omega
  · -- hcomp
    intro hneedT k hk hv
    rcases List.mem_cons.mp hk with hkh | hkq
    · subst hkh
      rw [if_pos ⟨hneedT, hv⟩, mapSeek_mapInsert, if_pos rfl]
      simp
    · have hsome := mi1.hcomp hneedT k hkq hv
      by_cases hc : t1.need_indexes = true ∧ h.value ≠ []
      · rw [if_pos hc, mapSeek_mapInsert]
        by_cases hkh : k = h
        · rw [if_pos hkh]
          simp
        · rw [if_neg hkh]
          exact hsome
      · rw [if_neg hc]
        exact hsome
  · -- npt
    intro n id hs
    rcases ncase n id hs with ⟨hn, hid⟩ | ⟨hold, _⟩
    · subst hid
      refine ⟨by omega, by simp, ?_⟩
      have hp0 : t1.add_times + 1 - t1.add_times - 1 = 0 := by omega
      rw [hp0]
      exact ⟨h, List.getElem?_cons_zero, hn.symm⟩
    · obtain ⟨h1, h2, k, h3, h4⟩ := mi1.npt n id hold
      refine ⟨by omega, by simp only [List.length_cons]; omega, k, ?_, h4⟩
      have hp : t1.add_times + 1 - id - 1 = (t1.add_times - id - 1) + 1 := by omega
      rw [hp, List.getElem?_cons_succ]
      exact h3
  · -- nmax
    intro n id hs j k hj hkn
    rcases ncase n id hs with ⟨hn, hid⟩ | ⟨hold, hne⟩
    · subst hid
      omega
    · match j with
      | 0 =>
        rw [List.getElem?_cons_zero] at hj
        have : k = h := (Option.some.inj hj).symm
        rw [this] at hkn
        exact absurd hkn.symm hne
      | j + 1 =>
        rw [List.getElem?_cons_succ] at hj
        have := mi1.nmax n id hold j k hj hkn
        omega
  · -- hemp
    intro hf
    have hm := mi1.hemp hf
    rw [if_neg (by simp [hf]), if_neg (by simp [hf])]
    exact hm

theorem MapsInv.evictMI {t : IndexTable} (mi : MapsInv t) (w : WF t) (e : Nat) :
    MapsInv (t.evictLoop e) :=
  (evictLoop_pres (fun s => WF s ∧ MapsInv s)
    (fun _ _ p => ⟨p.1.popWF, p.2.popMI p.1⟩) t.queue.length t le_rfl e ⟨w, mi⟩).2

theorem MapsInv.addMI {t : IndexTable} (mi : MapsInv t) (w : WF t) (h : Header) :
    MapsInv (t.AddHeader h) := by
  have w1 : WF (t.evictLoop (HeaderSize h)) := w.evictWF _
  have mi1 : MapsInv (t.evictLoop (HeaderSize h)) := mi.evictMI w _
  simp only [AddHeader]
  split
  · exact mi1
  · exact MapsInv.push _ h w1 mi1

theorem MapsInv.addAllMI {t : IndexTable} (mi : MapsInv t) (w : WF t) (hs : List Header) :
    MapsInv (t.addAll hs) := by
  induction hs generalizing t with
  | nil => exact mi
  | cons a l ih => exact ih (mi.addMI w a) (w.addWF a)

/-- `Init` produces a table satisfying the reverse-map invariant. -/
theorem MapsInv.initMI (opts : IndexTableOptions) : MapsInv (Init opts) := by
  unfold Init
  refine MapsInv.addAllMI ?_ (by constructor <;> simp [sumSize_nil]) _
  refine ⟨?_, ?_, ?_, ?_, ?_, ?_, fun _ => ⟨rfl, rfl⟩⟩
  · intro k id hs
    rw [mapSeek_nil] at hs
    cases hs
  · intro k id hs
    rw [mapSeek_nil] at hs
    cases hs
  · intro k id hs
    rw [mapSeek_nil] at hs
    cases hs
  · intro _ k hk
    cases hk
  · intro n id hs
    rw [mapSeek_nil] at hs
    cases hs
  · intro n id hs
    rw [mapSeek_nil] at hs
    cases hs

/-- A non-zero result of `GetIndexOfHeader` is a valid absolute index whose
entry equals the searched header. -/
theorem GetIndexOfHeader_sound {t : IndexTable} (mi : MapsInv t) (h : Header)
    (hnz : t.GetIndexOfHeader h ≠ 0) :
    t.start_index ≤ t.GetIndexOfHeader h ∧ t.GetIndexOfHeader h < t.end_index ∧
      t.HeaderAt (t.GetIndexOfHeader h) = some h := by
  unfold GetIndexOfHeader at hnz ⊢
  match hseek : mapSeek t.header_index h with
  | none =>
    rw [hseek] at hnz
    exact absurd rfl hnz
  | some id =>
    dsimp only at hnz ⊢
    obtain ⟨h1, h2, h3⟩ := mi.hpt h id hseek
    have hAid : 1 ≤ t.add_times - id := by omega
    refine ⟨by omega, ?_, ?_⟩
    · unfold end_index
      omega
    · unfold HeaderAt
      rw [if_neg (by omega)]
      have heq : t.start_index + (t.add_times - id) - 1 - t.start_index =
          t.add_times - id - 1 := by omega
      rw [heq]
      exact h3

/-- A non-zero result of `GetIndexOfName` is a valid absolute index whose
entry has the searched name. -/
theorem GetIndexOfName_sound {t : IndexTable} (mi : MapsInv t) (n : List Nat)
    (hnz : t.GetIndexOfName n ≠ 0) :
    t.start_index ≤ t.GetIndexOfName n ∧ t.GetIndexOfName n < t.end_index ∧
      ∃ k, t.HeaderAt (t.GetIndexOfName n) = some k ∧ k.name = n := by
  unfold GetIndexOfName at hnz ⊢
  match hseek : mapSeek t.name_index n with
  | none =>
    rw [hseek] at hnz
    exact absurd rfl hnz
  | some id =>
    dsimp only at hnz ⊢
    obtain ⟨h1, h2, k, h3, h4⟩ := mi.npt n id hseek
    have hAid : 1 ≤ t.add_times - id := by omega
    refine ⟨by omega, ?_, ?_⟩
    · unfold end_index
      omega
    · unfold HeaderAt
      rw [if_neg (by omega)]
      have heq : t.start_index + (t.add_times - id) - 1 - t.start_index =
          t.add_times - id - 1 := by omega
      rw [heq]
      exact ⟨k, h3, h4⟩

end IndexTable

/-- C5: on any table reachable by `AddHeader` calls from a freshly initialised
table with lookup indexes enabled, a non-zero `GetIndexOfHeader(h)` is in
`[start_index, end_index)` and `HeaderAt` of it is exactly `h`, and a non-zero
`GetIndexOfName(n)` is in range with an entry whose name is `n`. -/
theorem C5_dynamic_index_invariant (opts : IndexTable.IndexTableOptions)
    (hs : List Header) (h : Header) (n : List Nat)
    (_hneed : opts.need_indexes = true) :
    let t := (IndexTable.Init opts).addAll hs
    (t.GetIndexOfHeader h ≠ 0 →
      t.start_index ≤ t.GetIndexOfHeader h ∧ t.GetIndexOfHeader h < t.end_index ∧
      t.HeaderAt (t.GetIndexOfHeader h) = some h) ∧
    (t.GetIndexOfName n ≠ 0 →
      t.start_index ≤ t.GetIndexOfName n ∧ t.GetIndexOfName n < t.end_index ∧
      ∃ k, t.HeaderAt (t.GetIndexOfName n) = some k ∧ k.name = n) := by
  intro t
  have mi : IndexTable.MapsInv t :=
    (IndexTable.MapsInv.initMI opts).addAllMI (IndexTable.WF.initWF opts) hs
  exact ⟨fun hnz => IndexTable.GetIndexOfHeader_sound mi h hnz,
    fun hnz => IndexTable.GetIndexOfName_sound mi n hnz⟩

/-- C4: after `AddHeader(h)` on any table reachable by a sequence of
`AddHeader` calls from a freshly initialised table, the total size is at most
`max_size`; if the entry fits, the surviving entries are a newest-first prefix
of the old queue with `h` pushed on top, and any longer prefix would have
exceeded `max_size` (eviction is oldest-first and stops as soon as the entry
fits); if the entry alone exceeds `max_size`, the table ends up empty and `h`
is not stored. -/
theorem C4_table_size_invariant (opts : IndexTable.IndexTableOptions)
    (hs : List Header) (h : Header) (_hname : h.name ≠ []) :
    let t := (IndexTable.Init opts).addAll hs
    let t' := t.AddHeader h
    t'.size ≤ t.max_size ∧
    (HeaderSize h ≤ t.max_size →
      ∃ m, m ≤ t.queue.length ∧ t'.queue = h :: t.queue.take m ∧
        ∀ j, m < j → j ≤ t.queue.length →
          sumSize (t.queue.take j) + HeaderSize h > t.max_size) ∧
    (HeaderSize h > t.max_size → t'.queue = [] ∧ t'.size = 0) := by
  intro t t'
  have w : IndexTable.WF t := (IndexTable.WF.initWF opts).addAllWF hs
  have w' : IndexTable.WF t' := w.addWF h
  have hmax : t'.max_size = t.max_size := IndexTable.AddHeader_max_size t h
  refine ⟨by rw [← hmax]; exact w'.size_le, ?_, ?_⟩
  · intro hfit
    obtain ⟨m, hm, hqeq, hmin⟩ := IndexTable.evictLoop_take t (HeaderSize h) w
    refine ⟨m, hm, ?_, hmin⟩
    show (t.AddHeader h).queue = h :: t.queue.take m
    simp only [IndexTable.AddHeader]
    rw [if_neg (by rw [IndexTable.evictLoop_max_size]; omega)]
    show h :: (t.evictLoop (HeaderSize h)).queue = h :: t.queue.take m
    rw [hqeq]
  · intro hbig
    have hpost := IndexTable.evictLoop_post t (HeaderSize h) w
    have hmax1 := IndexTable.evictLoop_max_size t (HeaderSize h)
    have hzero : (t.evictLoop (HeaderSize h)).size = 0 := by omega
    have w1 : IndexTable.WF (t.evictLoop (HeaderSize h)) := w.evictWF (HeaderSize h)
    have hqnil : (t.evictLoop (HeaderSize h)).queue = [] := by
      rw [← IndexTable.sumSize_eq_zero_iff, ← w1.size_eq]
      exact hzero
    have ht' : t' = t.evictLoop (HeaderSize h) := by
      show t.AddHeader h = _
      simp only [IndexTable.AddHeader]
      rw [if_pos (by rw [IndexTable.evictLoop_max_size]; omega)]
    rw [ht']
    exact ⟨hqnil, hzero⟩

/-! ### Huffman codec

The Huffman coder of hpack.cpp (lines 226-426).  The code table itself lives
in `brpc/details/hpack-static-table.h`, which is not part of this repository
snapshot; it is modelled from the spec below. -/

/-- A `(bit_length, right-aligned code)` pair (see spec section 3,
"HuffmanCode"). -/
structure HuffmanCode where
  code : Nat
  bit_len : Nat
deriving DecidableEq, Repr

/-- Modelled from the spec: `s_huffman_table` from
`brpc/details/hpack-static-table.h` is not under src/; the spec defines it as
"the fixed 257-symbol prefix code from RFC 7541 Appendix B" (glossary;
section 4.2).  These are the 257 `(code, bit_length)` pairs of RFC 7541
Appendix B, symbol 256 being EOS. -/
def huffman_table_raw : List (Nat × Nat) := [
  (0x1ff8, 13), (0x7fffd8, 23), (0xfffffe2, 28), (0xfffffe3, 28), (0xfffffe4, 28), (0xfffffe5,
  28), (0xfffffe6, 28), (0xfffffe7, 28), (0xfffffe8, 28), (0xffffea, 24), (0x3ffffffc, 30),
  (0xfffffe9, 28), (0xfffffea, 28), (0x3ffffffd, 30), (0xfffffeb, 28), (0xfffffec, 28),
  (0xfffffed, 28), (0xfffffee, 28), (0xfffffef, 28), (0xffffff0, 28), (0xffffff1, 28),
  (0xffffff2, 28), (0x3ffffffe, 30), (0xffffff3, 28), (0xffffff4, 28), (0xffffff5, 28),
  (0xffffff6, 28), (0xffffff7, 28), (0xffffff8, 28), (0xffffff9, 28), (0xffffffa, 28),
  (0xffffffb, 28), (0x14, 6), (0x3f8, 10), (0x3f9, 10), (0xffa, 12), (0x1ff9, 13), (0x15, 6),
  (0xf8, 8), (0x7fa, 11), (0x3fa, 10), (0x3fb, 10), (0xf9, 8), (0x7fb, 11), (0xfa, 8), (0x16,
  6), (0x17, 6), (0x18, 6), (0x0, 5), (0x1, 5), (0x2, 5), (0x19, 6), (0x1a, 6), (0x1b, 6),
  (0x1c, 6), (0x1d, 6), (0x1e, 6), (0x1f, 6), (0x5c, 7), (0xfb, 8), (0x7ffc, 15), (0x20, 6),
  (0xffb, 12), (0x3fc, 10), (0x1ffa, 13), (0x21, 6), (0x5d, 7), (0x5e, 7), (0x5f, 7), (0x60,
  7), (0x61, 7), (0x62, 7), (0x63, 7), (0x64, 7), (0x65, 7), (0x66, 7), (0x67, 7), (0x68, 7),
  (0x69, 7), (0x6a, 7), (0x6b, 7), (0x6c, 7), (0x6d, 7), (0x6e, 7), (0x6f, 7), (0x70, 7),
  (0x71, 7), (0x72, 7), (0xfc, 8), (0x73, 7), (0xfd, 8), (0x1ffb, 13), (0x7fff0, 19), (0x1ffc,
  13), (0x3ffc, 14), (0x22, 6), (0x7ffd, 15), (0x3, 5), (0x23, 6), (0x4, 5), (0x24, 6), (0x5,
  5), (0x25, 6), (0x26, 6), (0x27, 6), (0x6, 5), (0x74, 7), (0x75, 7), (0x28, 6), (0x29, 6),
  (0x2a, 6), (0x7, 5), (0x2b, 6), (0x76, 7), (0x2c, 6), (0x8, 5), (0x9, 5), (0x2d, 6), (0x77,
  7), (0x78, 7), (0x79, 7), (0x7a, 7), (0x7b, 7), (0x7ffe, 15), (0x7fc, 11), (0x3ffd, 14),
  (0x1ffd, 13), (0xffffffc, 28), (0xfffe6, 20), (0x3fffd2, 22), (0xfffe7, 20), (0xfffe8, 20),
  (0x3fffd3, 22), (0x3fffd4, 22), (0x3fffd5, 22), (0x7fffd9, 23), (0x3fffd6, 22), (0x7fffda,
  23), (0x7fffdb, 23), (0x7fffdc, 23), (0x7fffdd, 23), (0x7fffde, 23), (0xffffeb, 24),
  (0x7fffdf, 23), (0xffffec, 24), (0xffffed, 24), (0x3fffd7, 22), (0x7fffe0, 23), (0xffffee,
  24), (0x7fffe1, 23), (0x7fffe2, 23), (0x7fffe3, 23), (0x7fffe4, 23), (0x1fffdc, 21),
  (0x3fffd8, 22), (0x7fffe5, 23), (0x3fffd9, 22), (0x7fffe6, 23), (0x7fffe7, 23), (0xffffef,
  24), (0x3fffda, 22), (0x1fffdd, 21), (0xfffe9, 20), (0x3fffdb, 22), (0x3fffdc, 22),
  (0x7fffe8, 23), (0x7fffe9, 23), (0x1fffde, 21), (0x7fffea, 23), (0x3fffdd, 22), (0x3fffde,
  22), (0xfffff0, 24), (0x1fffdf, 21), (0x3fffdf, 22), (0x7fffeb, 23), (0x7fffec, 23),
  (0x1fffe0, 21), (0x1fffe1, 21), (0x3fffe0, 22), (0x1fffe2, 21), (0x7fffed, 23), (0x3fffe1,
  22), (0x7fffee, 23), (0x7fffef, 23), (0xfffea, 20), (0x3fffe2, 22), (0x3fffe3, 22),
  (0x3fffe4, 22), (0x7ffff0, 23), (0x3fffe5, 22), (0x3fffe6, 22), (0x7ffff1, 23), (0x3ffffe0,
  26), (0x3ffffe1, 26), (0xfffeb, 20), (0x7fff1, 19), (0x3fffe7, 22), (0x7ffff2, 23),
  (0x3fffe8, 22), (0x1ffffec, 25), (0x3ffffe2, 26), (0x3ffffe3, 26), (0x3ffffe4, 26),
  (0x7ffffde, 27), (0x7ffffdf, 27), (0x3ffffe5, 26), (0xfffff1, 24), (0x1ffffed, 25), (0x7fff2,
  19), (0x1fffe3, 21), (0x3ffffe6, 26), (0x7ffffe0, 27), (0x7ffffe1, 27), (0x3ffffe7, 26),
  (0x7ffffe2, 27), (0xfffff2, 24), (0x1fffe4, 21), (0x1fffe5, 21), (0x3ffffe8, 26), (0x3ffffe9,
  26), (0xffffffd, 28), (0x7ffffe3, 27), (0x7ffffe4, 27), (0x7ffffe5, 27), (0xfffec, 20),
  (0xfffff3, 24), (0xfffed, 20), (0x1fffe6, 21), (0x3fffe9, 22), (0x1fffe7, 21), (0x1fffe8,
  21), (0x7ffff3, 23), (0x3fffea, 22), (0x3fffeb, 22), (0x1ffffee, 25), (0x1ffffef, 25),
  (0xfffff4, 24), (0xfffff5, 24), (0x3ffffea, 26), (0x7ffff4, 23), (0x3ffffeb, 26), (0x7ffffe6,
  27), (0x3ffffec, 26), (0x3ffffed, 26), (0x7ffffe7, 27), (0x7ffffe8, 27), (0x7ffffe9, 27),
  (0x7ffffea, 27), (0x7ffffeb, 27), (0xffffffe, 28), (0x7ffffec, 27), (0x7ffffed, 27),
  (0x7ffffee, 27), (0x7ffffef, 27), (0x7fffff0, 27), (0x3ffffee, 26), (0x3fffffff, 30)
]

/-- The table as `HuffmanCode` entries. -/
def s_huffman_table : List HuffmanCode := huffman_table_raw.map (fun p => ⟨p.1, p.2⟩)

/-- `s_huffman_table[c]`. -/
def huffCode (c : Nat) : HuffmanCode := s_huffman_table.getD c ⟨0, 0⟩

/-- `HPACK_HUFFMAN_EOS` (the 257th symbol). -/
def HPACK_HUFFMAN_EOS : Nat := 256

/-- `HuffmanNode` (hpack.cpp lines 226-230): child ids (0 = absent) and the
decoded symbol, `INT_MAX` when the node is internal. -/
structure HuffmanNode where
  left_child : Nat
  right_child : Nat
  value : Nat
deriving DecidableEq, Repr

/-- `HuffmanTree::INVALID_VALUE = INT_MAX`. -/
def INVALID_VALUE : Nat := 2147483647

/-- The `std::vector<HuffmanNode> _node_memory` of `HuffmanTree`, modelled as
its length together with its contents (`nodes i` is `_node_memory[i]` for
`i < size`; `NULL_NODE = 0`, `ROOT_NODE = 1`, node `id` lives at
`_node_memory[id - 1]`). -/
structure HuffmanTree where
  size : Nat
  nodes : Nat → HuffmanNode

namespace HuffmanTree

/-- The freshly constructed tree: only the root, internal. -/
def initTree : HuffmanTree := ⟨1, fun _ => ⟨0, 0, INVALID_VALUE⟩⟩

/-- `HuffmanTree::node(id) const` (hpack.cpp lines 272-280): `none` for the
null id or out-of-range ids. -/
def node? (t : HuffmanTree) (id : Nat) : Option HuffmanNode :=
  if id = 0 then none
  else if id > t.size then none
  else some (t.nodes (id - 1))

/-- One step of `AddLeafNode`'s walk (hpack.cpp lines 250-265): follow or
create the child of `cur` selected by `bit` (`AllocNode` appends a fresh
internal node with id `size + 1`). -/
def addStep (t : HuffmanTree) (cur : Nat) (bit : Bool) : HuffmanTree × Nat :=
  let nd := t.nodes (cur - 1)
  let child := if bit then nd.right_child else nd.left_child
  if child = 0 then
    let newId := t.size + 1
    let parent' := if bit then { nd with right_child := newId }
      else { nd with left_child := newId }
    let nodes' : Nat → HuffmanNode := fun j =>
      if j = cur - 1 then parent'
      else if j = t.size then ⟨0, 0, INVALID_VALUE⟩
      else t.nodes j
    (⟨t.size + 1, nodes'⟩, newId)
  else
    (t, child)

/-- The walk of `AddLeafNode` over bits `i = bit_len .. 1`. -/
def addWalk (t : HuffmanTree) (cur : Nat) (code : Nat) :
    Nat → HuffmanTree × Nat
  | 0 => (t, cur)
  | i + 1 =>
    let p := addStep t cur (code &&& (1 <<< i) ≠ 0)
    addWalk p.1 p.2 code i

/-- `HuffmanTree::AddLeafNode` (hpack.cpp lines 248-270): walk the code's
bits MSB-first, then store the symbol at the final node. -/
def AddLeafNode (t : HuffmanTree) (value : Nat) (c : HuffmanCode) : HuffmanTree :=
  let p := addWalk t 1 c.code c.bit_len
  ⟨p.1.size, fun j =>
    if j = p.2 - 1 then { p.1.nodes (p.2 - 1) with value := value }
    else p.1.nodes j⟩

end HuffmanTree

/-- The process-wide Huffman tree built by `CreateStaticTableOrDie`
(hpack.cpp lines 457-461): insert the 257 symbols in order. -/
def s_huffman_tree : HuffmanTree :=
  (List.range 257).foldl (fun tr i => tr.AddLeafNode i (huffCode i))
    HuffmanTree.initTree

/-- The state of `HuffmanDecoder` (hpack.cpp lines 355-426): current node id
(the C++ holds a pointer, reset to the root after every emitted symbol),
`_cur_depth`, `_padding`, and the output written through `_out`. -/
structure HuffDecState where
  cur : Nat
  depth : Nat
  padding : Bool
  out : List Nat
deriving DecidableEq, Repr

/-- One bit of `HuffmanDecoder::Decode` (hpack.cpp lines 367-406): follow the
right child on 1, left on 0; `none` on an absent child or on EOS; emit and
reset on a non-EOS leaf; otherwise deepen (clearing `_padding` on a 0 bit). -/
def huffStep (tr : HuffmanTree) (st : HuffDecState) (bit : Bool) :
    Option HuffDecState :=
  match tr.node? st.cur with
  | none => none
  | some nd =>
    let childId := if bit then nd.right_child else nd.left_child
    match tr.node? childId with
    | none => none
    | some child =>
      if child.value ≠ INVALID_VALUE then
        if child.value = HPACK_HUFFMAN_EOS then none
        else some ⟨1, 0, true, st.out ++ [child.value % 256]⟩
      else
        some ⟨childId, st.depth + 1, if bit then st.padding else false, st.out⟩

/-- Run `huffStep` over a list of bits; on failure carry the output written so
far (the C++ leaves it in `*_out`). -/
def huffStepBits (tr : HuffmanTree) (st : HuffDecState) :
    List Bool → Except (List Nat) HuffDecState
  | [] => .ok st
  | b :: bs =>
    match huffStep tr st b with
    | none => .error st.out
    | some st' => huffStepBits tr st' bs

/-- The bits of one byte, most significant first, as scanned by
`HuffmanDecoder::Decode`'s loop `for (int i = 7; i >= 0; --i)`. -/
def byteBits (b : Nat) : List Bool :=
  [b.testBit 7, b.testBit 6, b.testBit 5, b.testBit 4,
   b.testBit 3, b.testBit 2, b.testBit 1, b.testBit 0]

/-- The decode loop of `DecodeString` (hpack.cpp lines 566-571):
`for (; iter != NULL && length; ++iter, --length) if (d.Decode(*iter) != 0)
return -1;`.  On failure the error carries the partially written output and
the input from the failing byte on. -/
def huffDecodeIter (tr : HuffmanTree) (st : HuffDecState) :
    List Nat → Nat → Except (List Nat × List Nat) (HuffDecState × List Nat)
  | input, 0 => .ok (st, input)
  | [], _ + 1 => .ok (st, [])
  | b :: rest, length + 1 =>
    match huffStepBits tr st (byteBits b) with
    | .error out => .error (out, b :: rest)
    | .ok st' => huffDecodeIter tr st' rest length

/-- `HuffmanDecoder::EndStream` (hpack.cpp lines 409-419). -/
def huffEndStream (st : HuffDecState) : Int :=
  if st.depth = 0 then 0
  else if st.depth ≤ 7 ∧ st.padding = true then 0
  else -1

/-- The state of `HuffmanEncoder` (hpack.cpp lines 298-353): bytes pushed so
far, `_partial_byte` and `_remain_bit`. -/
structure HuffEncState where
  out : List Nat
  pbyte : Nat
  rembit : Nat
deriving DecidableEq, Repr

/-- The bit-packing loop of `HuffmanEncoder::Encode` (hpack.cpp lines
311-327), processing the low `bits_left` bits of `code` in chunks limited by
`_remain_bit`; the byte is flushed whenever `_remain_bit` reaches 0.  (The
`st.rembit = 0` guard only serves termination: `_remain_bit` is always in
`1..8` at the loop head.) -/
def huffEncLoop (code : Nat) (bits_left : Nat) (st : HuffEncState) : HuffEncState :=
  if _hb : bits_left = 0 then st
  else if st.rembit = 0 then st
  else
    let a := min st.rembit bits_left
    let adding := ((code &&& ((1 <<< bits_left) - 1)) >>> (bits_left - a)) % 256
    let pbyte' := (st.pbyte ||| (adding <<< (st.rembit - a))) % 256
    let st' : HuffEncState :=
      if st.rembit - a = 0 then ⟨st.out ++ [pbyte'], 0, 8⟩
      else ⟨st.out, pbyte', st.rembit - a⟩
    huffEncLoop code (bits_left - a) st'
termination_by bits_left
decreasing_by
  rename_i hr
  have ha : 1 ≤ min st.rembit bits_left := by omega
  omega

/-- `HuffmanEncoder::Encode` (hpack.cpp lines 309-327). -/
def huffEncodeSym (st : HuffEncState) (byte : Nat) : HuffEncState :=
  huffEncLoop (huffCode byte).code (huffCode byte).bit_len st

/-- `HuffmanEncoder::EndStream` (hpack.cpp lines 329-343): pad the trailing
bits with 1s and flush. -/
def huffEncEnd (st : HuffEncState) : HuffEncState :=
  if st.rembit = 8 then st
  else ⟨st.out ++ [(st.pbyte ||| ((1 <<< st.rembit) - 1)) % 256], 0, 0⟩

/-- The fresh encoder state. -/
def huffEncInit : HuffEncState := ⟨[], 0, 8⟩

/-- `EncodeString` (hpack.cpp lines 521-545), returning the pushed bytes.
`bit_len` is accumulated in a `uint32_t`. -/
def EncodeString (s : List Nat) (huffman_encoding : Bool) : List Nat :=
  if huffman_encoding = false then
    EncodeInteger 0x00 7 s.length ++ s
  else
    let bit_len := s.foldl (fun acc c => (acc + (huffCode c).bit_len) % 2 ^ 32) 0
    EncodeInteger 0x80 7 ((bit_len >>> 3) + (if bit_len &&& 7 ≠ 0 then 1 else 0)) ++
      (huffEncEnd ((s.foldl huffEncodeSym huffEncInit))).out

/-- `DecodeString` (hpack.cpp lines 547-576).  Takes the previous contents of
`*out` (cleared only after the length checks) and returns (return value,
`*out`, remaining input). -/
def DecodeString (input : List Nat) (old : List Nat) : Int × List Nat × List Nat :=
  match input with
  | [] => (0, old, [])
  | b :: _ =>
    let huffman := b &&& 0x80 ≠ 0
    let r := DecodeInteger input 7
    if r.1 ≤ 0 then (-1, old, r.2.2)
    else if r.2.1 > r.2.2.length then (0, old, r.2.2)
    else if ¬ huffman then
      (r.1 + r.2.1, r.2.2.take r.2.1, r.2.2.drop r.2.1)
    else
      match huffDecodeIter s_huffman_tree ⟨1, 0, true, []⟩ r.2.2 r.2.1 with
      | .error p => (-1, p.1, p.2)
      | .ok p =>
        if huffEndStream p.1 ≠ 0 then (-1, p.1.out, p.2)
        else (r.1 + r.2.1, p.1.out, p.2)

/-! ### HPacker -/

/-- Modelled from the spec: `s_static_headers` from
`brpc/details/hpack-static-table.h` is not under src/; the spec defines the
static table as "the 61-entry read-only header list from RFC 7541 Appendix A"
(glossary; section 4.5).  These are those 61 `(name, value)` pairs as byte
strings, in Appendix A order. -/
def static_headers_raw : List (List Nat × List Nat) := [
  ([58, 97, 117, 116, 104, 111, 114, 105, 116, 121], []),
  ([58, 109, 101, 116, 104, 111, 100], [71, 69, 84]),
  ([58, 109, 101, 116, 104, 111, 100], [80, 79, 83, 84]),
  ([58, 112, 97, 116, 104], [47]),
  ([58, 112, 97, 116, 104], [47, 105, 110, 100, 101, 120, 46, 104, 116, 109, 108]),
  ([58, 115, 99, 104, 101, 109, 101], [104, 116, 116, 112]),
  ([58, 115, 99, 104, 101, 109, 101], [104, 116, 116, 112, 115]),
  ([58, 115, 116, 97, 116, 117, 115], [50, 48, 48]),
  ([58, 115, 116, 97, 116, 117, 115], [50, 48, 52]),
  ([58, 115, 116, 97, 116, 117, 115], [50, 48, 54]),
  ([58, 115, 116, 97, 116, 117, 115], [51, 48, 52]),
  ([58, 115, 116, 97, 116, 117, 115], [52, 48, 48]),
  ([58, 115, 116, 97, 116, 117, 115], [52, 48, 52]),
  ([58, 115, 116, 97, 116, 117, 115], [53, 48, 48]),
  ([97, 99, 99, 101, 112, 116, 45, 99, 104, 97, 114, 115, 101, 116], []),
  ([97, 99, 99, 101, 112, 116, 45, 101, 110, 99, 111, 100, 105, 110, 103], [103, 122, 105, 112, 44, 32, 100, 101, 102, 108, 97, 116, 101]),
  ([97, 99, 99, 101, 112, 116, 45, 108, 97, 110, 103, 117, 97, 103, 101], []),
  ([97, 99, 99, 101, 112, 116, 45, 114, 97, 110, 103, 101, 115], []),
  ([97, 99, 99, 101, 112, 116], []),
  ([97, 99, 99, 101, 115, 115, 45, 99, 111, 110, 116, 114, 111, 108, 45, 97, 108, 108, 111, 119, 45, 111, 114, 105, 103, 105, 110], []),
  ([97, 103, 101], []),
  ([97, 108, 108, 111, 119], []),
  ([97, 117, 116, 104, 111, 114, 105, 122, 97, 116, 105, 111, 110], []),
  ([99, 97, 99, 104, 101, 45, 99, 111, 110, 116, 114, 111, 108], []),
  ([99, 111, 110, 116, 101, 110, 116, 45, 100, 105, 115, 112, 111, 115, 105, 116, 105, 111, 110], []),
  ([99, 111, 110, 116, 101, 110, 116, 45, 101, 110, 99, 111, 100, 105, 110, 103], []),
  ([99, 111, 110, 116, 101, 110, 116, 45, 108, 97, 110, 103, 117, 97, 103, 101], []),
  ([99, 111, 110, 116, 101, 110, 116, 45, 108, 101, 110, 103, 116, 104], []),
  ([99, 111, 110, 116, 101, 110, 116, 45, 108, 111, 99, 97, 116, 105, 111, 110], []),
  ([99, 111, 110, 116, 101, 110, 116, 45, 114, 97, 110, 103, 101], []),
  ([99, 111, 110, 116, 101, 110, 116, 45, 116, 121, 112, 101], []),
  ([99, 111, 111, 107, 105, 101], []),
  ([100, 97, 116, 101], []),
  ([101, 116, 97, 103], []),
  ([101, 120, 112, 101, 99, 116], []),
  ([101, 120, 112, 105, 114, 101, 115], []),
  ([102, 114, 111, 109], []),
  ([104, 111, 115, 116], []),
  ([105, 102, 45, 109, 97, 116, 99, 104], []),
  ([105, 102, 45, 109, 111, 100, 105, 102, 105, 101, 100, 45, 115, 105, 110, 99, 101], []),
  ([105, 102, 45, 110, 111, 110, 101, 45, 109, 97, 116, 99, 104], []),
  ([105, 102, 45, 114, 97, 110, 103, 101], []),
  ([105, 102, 45, 117, 110, 109, 111, 100, 105, 102, 105, 101, 100, 45, 115, 105, 110, 99, 101], []),
  ([108, 97, 115, 116, 45, 109, 111, 100, 105, 102, 105, 101, 100], []),
  ([108, 105, 110, 107], []),
  ([108, 111, 99, 97, 116, 105, 111, 110], []),
  ([109, 97, 120, 45, 102, 111, 114, 119, 97, 114, 100, 115], []),
  ([112, 114, 111, 120, 121, 45, 97, 117, 116, 104, 101, 110, 116, 105, 99, 97, 116, 101], []),
  ([112, 114, 111, 120, 121, 45, 97, 117, 116, 104, 111, 114, 105, 122, 97, 116, 105, 111, 110], []),
  ([114, 97, 110, 103, 101], []),
  ([114, 101, 102, 101, 114, 101, 114], []),
  ([114, 101, 102, 114, 101, 115, 104], []),
  ([114, 101, 116, 114, 121, 45, 97, 102, 116, 101, 114], []),
  ([115, 101, 114, 118, 101, 114], []),
  ([115, 101, 116, 45, 99, 111, 111, 107, 105, 101], []),
  ([115, 116, 114, 105, 99, 116, 45, 116, 114, 97, 110, 115, 112, 111, 114, 116, 45, 115, 101, 99, 117, 114, 105, 116, 121], []),
  ([116, 114, 97, 110, 115, 102, 101, 114, 45, 101, 110, 99, 111, 100, 105, 110, 103], []),
  ([117, 115, 101, 114, 45, 97, 103, 101, 110, 116], []),
  ([118, 97, 114, 121], []),
  ([118, 105, 97], []),
  ([119, 119, 119, 45, 97, 117, 116, 104, 101, 110, 116, 105, 99, 97, 116, 101], [])
]

def s_static_headers : List Header :=
  static_headers_raw.map (fun p => ⟨p.1, p.2⟩)

/-- The process-wide static table built by `CreateStaticTableOrDie`
(hpack.cpp lines 462-472): `max_size = UINT_MAX`, `start_index = 1`, lookup
indexes enabled, entries inserted by `Init` in reverse list order. -/
def s_static_table : IndexTable :=
  IndexTable.Init ⟨IndexTable.UINT_MAX, 1, s_static_headers, true⟩

/-- `HeaderIndexPolicy` (hpack.h lines 24-40). -/
inductive HeaderIndexPolicy where
  | HPACK_INDEX_HEADER
  | HPACK_NOT_INDEX_HEADER
  | HPACK_NEVER_INDEX_HEADER
deriving DecidableEq, Repr

export HeaderIndexPolicy (HPACK_INDEX_HEADER HPACK_NOT_INDEX_HEADER HPACK_NEVER_INDEX_HEADER)

/-- `HPackOptions` (hpack.h lines 42-59). -/
structure HPackOptions where
  index_policy : HeaderIndexPolicy
  encode_name : Bool
  encode_value : Bool
deriving DecidableEq, Repr

/-- `HPacker`: the per-direction encode and decode dynamic tables. -/
structure HPacker where
  encode_table : IndexTable
  decode_table : IndexTable
deriving DecidableEq, Repr

namespace HPacker

/-- `HPacker::Init` (hpack.cpp lines 595-617): both dynamic tables start at
`s_static_table->end_index()` with the given `max_table_size`; only the
encode table keeps lookup indexes. -/
def Init (max_table_size : Nat) : HPacker :=
  ⟨IndexTable.Init ⟨max_table_size, s_static_table.end_index, [], true⟩,
   IndexTable.Init ⟨max_table_size, s_static_table.end_index, [], false⟩⟩

/-- `HPacker::FindHeaderFromIndexTable` (hpack.cpp lines 619-625). -/
def FindHeaderFromIndexTable (p : HPacker) (h : Header) : Nat :=
  let index := s_static_table.GetIndexOfHeader h
  if index > 0 then index else p.encode_table.GetIndexOfHeader h

/-- `HPacker::FindNameFromIndexTable` (hpack.cpp lines 627-633). -/
def FindNameFromIndexTable (p : HPacker) (name : List Nat) : Nat :=
  let index := s_static_table.GetIndexOfName name
  if index > 0 then index else p.encode_table.GetIndexOfName name

/-- `HPacker::Encode` (hpack.cpp lines 635-667): (return value, the pushed
bytes, the new packer state). -/
def Encode (p : HPacker) (header : Header) (options : HPackOptions) :
    Int × List Nat × HPacker :=
  if options.index_policy ≠ HPACK_NEVER_INDEX_HEADER ∧
      p.FindHeaderFromIndexTable header > 0 then
    let bytes := EncodeInteger 0x80 7 (p.FindHeaderFromIndexTable header)
    ((bytes.length : Nat), bytes, p)
  else
    let name_index := p.FindNameFromIndexTable header.name
    let p' := if options.index_policy = HPACK_INDEX_HEADER then
        { p with encode_table := p.encode_table.AddHeader header }
      else p
    let opcode := match options.index_policy with
      | HPACK_INDEX_HEADER => EncodeInteger 0x40 6 name_index
      | HPACK_NOT_INDEX_HEADER => EncodeInteger 0x00 4 name_index
      | HPACK_NEVER_INDEX_HEADER => EncodeInteger 0x10 4 name_index
    let bytes := opcode ++
      (if name_index = 0 then EncodeString header.name options.encode_name else []) ++
      EncodeString header.value options.encode_value
    ((bytes.length : Nat), bytes, p')

/-- `HPacker::HeaderAt` (hpack.cpp lines 669-672). -/
def HeaderAt (p : HPacker) (index : Nat) : Option Header :=
  if index ≥ p.decode_table.start_index then p.decode_table.HeaderAt index
  else s_static_table.HeaderAt index

/-- `HPacker::DecodeWithKnownPrefix` (hpack.cpp lines 674-703): (return
value, `*h`, remaining input).  `h` is the previous contents of the output
header, whose fields are assigned as decoding proceeds. -/
def DecodeWithKnownPrefix (p : HPacker) (input : List Nat) (h : Header)
    (psize : Nat) : Int × Header × List Nat :=
  let r := DecodeInteger input psize
  if r.1 ≤ 0 then (-1, h, r.2.2)
  else if r.2.1 ≠ 0 then
    match p.HeaderAt r.2.1 with
    | none => (-1, h, r.2.2)
    | some ih =>
      let h1 : Header := { h with name := ih.name }
      let rv := DecodeString r.2.2 h1.value
      if rv.1 ≤ 0 then (-1, { h1 with value := rv.2.1 }, rv.2.2)
      else (r.1 + rv.1, { h1 with value := rv.2.1 }, rv.2.2)
  else
    let rn := DecodeString r.2.2 h.name
    if rn.1 ≤ 0 then (-1, { h with name := rn.2.1 }, rn.2.2)
    else
      let h1 : Header := { h with name := rn.2.1 }
      let rv := DecodeString rn.2.2 h1.value
      if rv.1 ≤ 0 then (-1, { h1 with value := rv.2.1 }, rv.2.2)
      else (r.1 + rn.1 + rv.1, { h1 with value := rv.2.1 }, rv.2.2)

/-- `HPacker::Decode` (hpack.cpp lines 705-789): dispatch on the top four
bits of the first byte.  Returns (return value, `*h`, new packer state,
remaining input). -/
def Decode (p : HPacker) (input : List Nat) (h : Header) :
    Int × Header × HPacker × List Nat :=
  match input with
  | [] => (0, h, p, [])
  | b :: _ =>
    if b >>> 4 ≥ 8 then
      -- (1xxx) Indexed Header Field Representation
      let r := DecodeInteger input 7
      if r.1 ≤ 0 then (r.1, h, p, r.2.2)
      else
        match p.HeaderAt r.2.1 with
        | none => (-1, h, p, r.2.2)
        | some ih => (r.1, ih, p, r.2.2)
    else if b >>> 4 ≥ 4 then
      -- (01xx) Literal Header Field with Incremental Indexing
      let r := p.DecodeWithKnownPrefix input h 6
      if r.1 ≤ 0 then (-1, r.2.1, p, r.2.2)
      else (r.1, r.2.1, { p with decode_table := p.decode_table.AddHeader r.2.1 },
        r.2.2)
    else if b >>> 4 ≥ 2 then
      -- (001x) Dynamic Table Size Update: not supported
      (-1, h, p, input)
    else
      -- (0001) Literal Header Field Never Indexed /
      -- (0000) Literal Header Field without Indexing
      let r := p.DecodeWithKnownPrefix input h 4
      if r.1 ≤ 0 then (-1, r.2.1, p, r.2.2)
      else (r.1, r.2.1, p, r.2.2)

end HPacker

/-- Witness for C5 at a concrete table (one dynamic entry, indexes enabled). -/
theorem C5_dynamic_index_invariant_witness :
    ((⟨200, 62, [], true⟩ : IndexTable.IndexTableOptions).need_indexes = true) ∧
    (let t := (IndexTable.Init ⟨200, 62, [], true⟩).addAll [⟨[97], [98]⟩]
     (t.GetIndexOfHeader ⟨[97], [98]⟩ ≠ 0 →
       t.start_index ≤ t.GetIndexOfHeader ⟨[97], [98]⟩ ∧
       t.GetIndexOfHeader ⟨[97], [98]⟩ < t.end_index ∧
       t.HeaderAt (t.GetIndexOfHeader ⟨[97], [98]⟩) = some ⟨[97], [98]⟩) ∧
     (t.GetIndexOfName [97] ≠ 0 →
       t.start_index ≤ t.GetIndexOfName [97] ∧
       t.GetIndexOfName [97] < t.end_index ∧
       ∃ k, t.HeaderAt (t.GetIndexOfName [97]) = some k ∧ k.name = [97])) :=
  ⟨rfl, C5_dynamic_index_invariant ⟨200, 62, [], true⟩ [⟨[97], [98]⟩] ⟨[97], [98]⟩ [97] rfl⟩

/-- Witness for C4 at a concrete table. -/
theorem C4_table_size_invariant_witness :
    (([99] : List Nat) ≠ []) ∧
    (let t := (IndexTable.Init ⟨100, 62, [], false⟩).addAll [⟨[97], [98]⟩]
     let t' := t.AddHeader ⟨[99], [100]⟩
     t'.size ≤ t.max_size ∧
     (HeaderSize ⟨[99], [100]⟩ ≤ t.max_size →
       ∃ m, m ≤ t.queue.length ∧ t'.queue = ⟨[99], [100]⟩ :: t.queue.take m ∧
         ∀ j, m < j → j ≤ t.queue.length →
           sumSize (t.queue.take j) + HeaderSize ⟨[99], [100]⟩ > t.max_size) ∧
     (HeaderSize ⟨[99], [100]⟩ > t.max_size → t'.queue = [] ∧ t'.size = 0)) :=
  ⟨by decide,
    C4_table_size_invariant ⟨100, 62, [], false⟩ [⟨[97], [98]⟩] ⟨[99], [100]⟩ (by decide)⟩

/-! ### Opcode dispatch (C8, C2) -/

/-- `EncodeInteger` always pushes at least one byte, and the first byte is
`(msb | x) % 256` for some `x < 2^psize`. -/
theorem EncodeInteger_head (msb psize value : Nat) :
    ∃ x t, x < 1 <<< psize ∧
      EncodeInteger msb psize value = ((msb ||| x) % 256) :: t := by
  have hpow : 0 < 1 <<< psize := by
    rw [Nat.one_shiftLeft]
    exact Nat.pos_pow_of_pos psize (by norm_num)
  simp only [EncodeInteger]
  by_cases hv : value < (1 <<< psize) - 1
  · rw [if_pos hv]
    exact ⟨value, [], by omega, rfl⟩
  · rw [if_neg hv]
    exact ⟨(1 <<< psize) - 1, encodeIntCont (value - ((1 <<< psize) - 1)), by omega, rfl⟩

theorem or80_boundF : ∀ x : Fin 128, 128 ≤ (0x80 ||| (x : Nat)) % 256 ∧
    (0x80 ||| (x : Nat)) % 256 ≤ 255 := by decide

theorem or40_boundF : ∀ x : Fin 64, 64 ≤ (0x40 ||| (x : Nat)) % 256 ∧
    (0x40 ||| (x : Nat)) % 256 ≤ 127 := by decide

theorem or00_boundF : ∀ x : Fin 16, (0x00 ||| (x : Nat)) % 256 ≤ 15 := by decide

theorem or10_boundF : ∀ x : Fin 16, 16 ≤ (0x10 ||| (x : Nat)) % 256 ∧
    (0x10 ||| (x : Nat)) % 256 ≤ 31 := by decide

theorem or80_bound (x : Nat) (hx : x < 128) : 128 ≤ (0x80 ||| x) % 256 ∧
    (0x80 ||| x) % 256 ≤ 255 := or80_boundF ⟨x, hx⟩

theorem or40_bound (x : Nat) (hx : x < 64) : 64 ≤ (0x40 ||| x) % 256 ∧
    (0x40 ||| x) % 256 ≤ 127 := or40_boundF ⟨x, hx⟩

theorem or00_bound (x : Nat) (hx : x < 16) : (0x00 ||| x) % 256 ≤ 15 :=
  or00_boundF ⟨x, hx⟩

theorem or10_bound (x : Nat) (hx : x < 16) : 16 ≤ (0x10 ||| x) % 256 ∧
    (0x10 ||| x) % 256 ≤ 31 := or10_boundF ⟨x, hx⟩

/-- The first byte of any field emitted by `HPacker::Encode` is never in
`[0x20, 0x3f]`: the four emitted opcodes place it in `[0x80, 0xff]`,
`[0x40, 0x7f]`, `[0x00, 0x0f]` or `[0x10, 0x1f]`. -/
theorem Encode_head (q : HPacker) (hd : Header) (opts : HPackOptions) :
    ∃ b0 t, (q.Encode hd opts).2.1 = b0 :: t ∧ (b0 < 0x20 ∨ 0x3f < b0) := by
  simp only [HPacker.Encode]
  split
  · obtain ⟨x, tl, hx, heq⟩ := EncodeInteger_head 0x80 7 (q.FindHeaderFromIndexTable hd)
    have h128 : (1 <<< 7 : Nat) = 128 := rfl
    have hb := (or80_bound x (by omega)).1
    exact ⟨(0x80 ||| x) % 256, tl, heq, Or.inr (by omega)⟩
  · cases hpol : opts.index_policy
    case HPACK_INDEX_HEADER =>
      simp only [hpol]
      obtain ⟨x, tl, hx, heq⟩ :=
        EncodeInteger_head 0x40 6 (q.FindNameFromIndexTable hd.name)
      have h64 : (1 <<< 6 : Nat) = 64 := rfl
      have hb := or40_bound x (by omega)
      refine ⟨(0x40 ||| x) % 256,
        (tl ++ (if q.FindNameFromIndexTable hd.name = 0 then
          EncodeString hd.name opts.encode_name else [])) ++
          EncodeString hd.value opts.encode_value, ?_, Or.inr (by omega)⟩
      rw [heq, List.cons_append, List.cons_append]
    case HPACK_NOT_INDEX_HEADER =>
      simp only [hpol]
      obtain ⟨x, tl, hx, heq⟩ :=
        EncodeInteger_head 0x00 4 (q.FindNameFromIndexTable hd.name)
      have h16 : (1 <<< 4 : Nat) = 16 := rfl
      have hb := or00_bound x (by omega)
      refine ⟨(0x00 ||| x) % 256,
        (tl ++ (if q.FindNameFromIndexTable hd.name = 0 then
          EncodeString hd.name opts.encode_name else [])) ++
          EncodeString hd.value opts.encode_value, ?_, Or.inl (by omega)⟩
      rw [heq, List.cons_append, List.cons_append]
    case HPACK_NEVER_INDEX_HEADER =>
      simp only [hpol]
      obtain ⟨x, tl, hx, heq⟩ :=
        EncodeInteger_head 0x10 4 (q.FindNameFromIndexTable hd.name)
      have h16 : (1 <<< 4 : Nat) = 16 := rfl
      have hb := or10_bound x (by omega)
      refine ⟨(0x10 ||| x) % 256,
        (tl ++ (if q.FindNameFromIndexTable hd.name = 0 then
          EncodeString hd.name opts.encode_name else [])) ++
          EncodeString hd.value opts.encode_value, ?_, Or.inl (by omega)⟩
      rw [heq, List.cons_append, List.cons_append]

/-- C8: any non-empty input whose first byte is in `[0x20, 0x3f]` (a Dynamic
Table Size Update instruction, top bits 001) makes `HPacker::Decode` return
−1 with both tables, the output header and the input untouched; and no byte
sequence produced by `HPacker::Encode` ever begins a field with a first byte
in that range. -/
theorem C8_table_size_update_rejected (p q : HPacker) (input : List Nat)
    (h hd : Header) (opts : HPackOptions) (b : Nat) (rest : List Nat)
    (hin : input = b :: rest) (hlo : 0x20 ≤ b) (hhi : b ≤ 0x3f) :
    ((p.Decode input h).1 = -1 ∧ (p.Decode input h).2.2.1 = p ∧
      (p.Decode input h).2.1 = h ∧ (p.Decode input h).2.2.2 = input) ∧
    ∃ b0 t, (q.Encode hd opts).2.1 = b0 :: t ∧ ¬ (0x20 ≤ b0 ∧ b0 ≤ 0x3f) := by
  subst hin
  have hb4 : b >>> 4 = b / 16 := by
    rw [Nat.shiftRight_eq_div_pow]
  constructor
  · simp only [HPacker.Decode]
    rw [if_neg (by omega), if_neg (by omega), if_pos (by omega)]
    exact ⟨rfl, rfl, rfl, rfl⟩
  · obtain ⟨b0, t, heq, hb0⟩ := Encode_head q hd opts
    exact ⟨b0, t, heq, by omega⟩

/-- Witness for C8 at the input `[0x20]` and a concrete encode. -/
theorem C8_table_size_update_rejected_witness :
    ((((HPacker.Init 4096).Decode [0x20] ⟨[], []⟩).1 = -1 ∧
      (((HPacker.Init 4096)).Decode [0x20] ⟨[], []⟩).2.2.1 = HPacker.Init 4096 ∧
      (((HPacker.Init 4096)).Decode [0x20] ⟨[], []⟩).2.1 = ⟨[], []⟩ ∧
      (((HPacker.Init 4096)).Decode [0x20] ⟨[], []⟩).2.2.2 = [0x20]) ∧
    ∃ b0 t, ((HPacker.Init 4096).Encode ⟨[97], [98]⟩
        ⟨HPACK_INDEX_HEADER, false, false⟩).2.1 = b0 :: t ∧
      ¬ (0x20 ≤ b0 ∧ b0 ≤ 0x3f)) :=
  C8_table_size_update_rejected (HPacker.Init 4096) (HPacker.Init 4096) [0x20]
    ⟨[], []⟩ ⟨[97], [98]⟩ ⟨HPACK_INDEX_HEADER, false, false⟩ 0x20 [] rfl
    (by norm_num) (by norm_num)

/-- C2 (refuting the claimed return semantics): `[0x40, 0x01, 0x61, 0x01,
0x62]` is a well-formed Literal Header Field with Incremental Indexing
(5 bytes, header `a: b`), but every strict non-empty prefix of it makes
`HPacker::Decode` return −1 — not the claimed 0 — because
`DecodeWithKnownPrefix` turns the inner "incomplete" results into −1. -/
theorem C2_truncated_literal_bug :
    (((HPacker.Init 4096).Decode [0x40, 0x01, 0x61, 0x01, 0x62] ⟨[], []⟩).1 = 5 ∧
     ((HPacker.Init 4096).Decode [0x40, 0x01, 0x61, 0x01, 0x62] ⟨[], []⟩).2.1 =
       ⟨[0x61], [0x62]⟩) ∧
    ((HPacker.Init 4096).Decode [0x40] ⟨[], []⟩).1 = -1 ∧
    ((HPacker.Init 4096).Decode [0x40, 0x01] ⟨[], []⟩).1 = -1 ∧
    ((HPacker.Init 4096).Decode [0x40, 0x01, 0x61] ⟨[], []⟩).1 = -1 ∧
    ((HPacker.Init 4096).Decode [0x40, 0x01, 0x61, 0x01] ⟨[], []⟩).1 = -1 := by
  decide

/-! ### Decode frame effect (C9) -/

/-- C9: `HPacker::Decode` never touches the encoder-side table; it leaves the
packer exactly unchanged on every non-positive return and on every opcode
other than 01xx; and on a positive return for a 01xx field the only mutation
is `AddHeader` of the decoded header on the decoder-side table. -/
theorem C9_decode_mutates_only_on_indexed_literal (p : HPacker) (input : List Nat)
    (h : Header) :
    (p.Decode input h).2.2.1.encode_table = p.encode_table ∧
    ((p.Decode input h).1 ≤ 0 → (p.Decode input h).2.2.1 = p) ∧
    (∀ b rest, input = b :: rest → b >>> 4 < 4 ∨ 8 ≤ b >>> 4 →
      (p.Decode input h).2.2.1 = p) ∧
    (∀ b rest, input = b :: rest → 4 ≤ b >>> 4 → b >>> 4 < 8 →
      0 < (p.Decode input h).1 →
      (p.Decode input h).2.2.1 =
        { p with decode_table := p.decode_table.AddHeader (p.Decode input h).2.1 }) := by
  match input with
  | [] =>
    refine ⟨rfl, fun _ => rfl, fun b rest hcon => ?_, fun b rest hcon => ?_⟩ <;> cases hcon
  | b :: rest =>
    simp only [HPacker.Decode]
    split
    · rename_i h8
      split
      · exact ⟨rfl, fun _ => rfl, fun b' r' _ _ => rfl,
          fun b' r' heq _ hlt _ => by
            injection heq with hb _
            omega⟩
      · split
        · exact ⟨rfl, fun _ => rfl, fun b' r' _ _ => rfl,
            fun b' r' heq _ hlt _ => by
              injection heq with hb _
              omega⟩
        · exact ⟨rfl, fun _ => rfl, fun b' r' _ _ => rfl,
            fun b' r' heq _ hlt _ => by
              injection heq with hb _
              omega⟩
    · rename_i h8
      split
      · rename_i h4
        split
        · rename_i hle
          exact ⟨rfl, fun _ => rfl, fun b' r' heq hcl => by
              injection heq with hb _
              omega,
            fun b' r' _ _ _ hpos => absurd hpos (by omega)⟩
        · rename_i hle
          refine ⟨rfl, fun hc => absurd hc (by omega), fun b' r' heq hcl => ?_,
            fun b' r' heq _ _ _ => rfl⟩
          injection heq with hb _
          omega
      · rename_i h4
        split
        · rename_i h2
          exact ⟨rfl, fun _ => rfl, fun b' r' _ _ => rfl,
            fun b' r' heq hge hlt _ => by
              injection heq with hb _
              omega⟩
        · rename_i h2
          split
          · exact ⟨rfl, fun _ => rfl, fun b' r' _ _ => rfl,
              fun b' r' heq hge hlt _ => by
                injection heq with hb _
                omega⟩
          · exact ⟨rfl, fun _ => rfl, fun b' r' _ _ => rfl,
              fun b' r' heq hge hlt _ => by
                injection heq with hb _
                omega⟩

/-- Witness for C9: decoding the literal field `a: b` mutates exactly the
decoder-side table, and decoding the table-size-update byte mutates nothing. -/
theorem C9_decode_mutates_only_on_indexed_literal_witness :
    ((HPacker.Init 4096).Decode [0x40, 0x01, 0x61, 0x01, 0x62] ⟨[], []⟩).2.2.1 =
      ⟨(HPacker.Init 4096).encode_table,
       (HPacker.Init 4096).decode_table.AddHeader
         (((HPacker.Init 4096).Decode [0x40, 0x01, 0x61, 0x01, 0x62] ⟨[], []⟩).2.1)⟩ ∧
    ((HPacker.Init 4096).Decode [0x30] ⟨[], []⟩).2.2.1 = HPacker.Init 4096 :=
  ⟨(C9_decode_mutates_only_on_indexed_literal (HPacker.Init 4096)
      [0x40, 0x01, 0x61, 0x01, 0x62] ⟨[], []⟩).2.2.2 0x40 [0x01, 0x61, 0x01, 0x62]
      rfl (by decide) (by decide) (by decide),
   (C9_decode_mutates_only_on_indexed_literal (HPacker.Init 4096)
      [0x30] ⟨[], []⟩).2.2.1 0x30 [] rfl (by decide)⟩

/-! ### Output-header independence (C10) -/

/-- `DecodeString`'s return value and input consumption never depend on the
previous contents of `*out`, and on a positive return neither does the output
(the string is cleared after the length checks and fully rewritten). -/
theorem DecodeString_old_indep (input o1 o2 : List Nat) :
    (DecodeString input o1).1 = (DecodeString input o2).1 ∧
    (DecodeString input o1).2.2 = (DecodeString input o2).2.2 ∧
    (0 < (DecodeString input o1).1 →
      (DecodeString input o1).2.1 = (DecodeString input o2).2.1) := by
  match input with
  | [] => exact ⟨rfl, rfl, fun hc => by simp [DecodeString] at hc⟩
  | b :: rest =>
    simp only [DecodeString]
    split
    · exact ⟨rfl, rfl, fun hc => by dsimp only at hc; omega⟩
    · split
      · exact ⟨rfl, rfl, fun hc => by dsimp only at hc; omega⟩
      · split
        · exact ⟨rfl, rfl, fun _ => rfl⟩
        · split
          · exact ⟨rfl, rfl, fun _ => rfl⟩
          · split
            · exact ⟨rfl, rfl, fun _ => rfl⟩
            · exact ⟨rfl, rfl, fun _ => rfl⟩

/-- `DecodeWithKnownPrefix` is insensitive to the previous `*h` in its return
value and consumption, and on success in the produced header as well. -/
theorem DecodeWithKnownPrefix_old_indep (p : HPacker) (input : List Nat)
    (h1 h2 : Header) (psize : Nat) :
    (p.DecodeWithKnownPrefix input h1 psize).1 =
      (p.DecodeWithKnownPrefix input h2 psize).1 ∧
    (p.DecodeWithKnownPrefix input h1 psize).2.2 =
      (p.DecodeWithKnownPrefix input h2 psize).2.2 ∧
    (0 < (p.DecodeWithKnownPrefix input h1 psize).1 →
      (p.DecodeWithKnownPrefix input h1 psize).2.1 =
        (p.DecodeWithKnownPrefix input h2 psize).2.1) := by
  obtain ⟨n1, v1⟩ := h1
  obtain ⟨n2, v2⟩ := h2
  simp only [HPacker.DecodeWithKnownPrefix]
  split
  · exact ⟨rfl, rfl, fun hc => by dsimp only at hc; omega⟩
  · split
    · split
      · exact ⟨rfl, rfl, fun hc => by dsimp only at hc; omega⟩
      · rename_i ih hat
        obtain ⟨hv1, hv2, hv3⟩ :=
          DecodeString_old_indep (DecodeInteger input psize).2.2 v1 v2
        by_cases hle : (DecodeString (DecodeInteger input psize).2.2 v1).1 ≤ 0
        · have hle2 : (DecodeString (DecodeInteger input psize).2.2 v2).1 ≤ 0 := by
            rw [← hv1]
            exact hle
          rw [if_pos hle, if_pos hle2]
          exact ⟨rfl, hv2, fun hc => by dsimp only at hc; omega⟩
        · have hle2 : ¬ (DecodeString (DecodeInteger input psize).2.2 v2).1 ≤ 0 := by
            rw [← hv1]
            exact hle
          rw [if_neg hle, if_neg hle2]
          refine ⟨by dsimp only; rw [hv1], hv2, fun _ => ?_⟩
          dsimp only
          rw [hv3 (by omega)]
    · obtain ⟨hn1, hn2, hn3⟩ :=
        DecodeString_old_indep (DecodeInteger input psize).2.2 n1 n2
      by_cases hle : (DecodeString (DecodeInteger input psize).2.2 n1).1 ≤ 0
      · have hle2 : (DecodeString (DecodeInteger input psize).2.2 n2).1 ≤ 0 := by
          rw [← hn1]
          exact hle
        rw [if_pos hle, if_pos hle2]
        exact ⟨rfl, hn2, fun hc => by dsimp only at hc; omega⟩
      · have hle2 : ¬ (DecodeString (DecodeInteger input psize).2.2 n2).1 ≤ 0 := by
          rw [← hn1]
          exact hle
        rw [if_neg hle, if_neg hle2]
        have hname : (DecodeString (DecodeInteger input psize).2.2 n1).2.1 =
            (DecodeString (DecodeInteger input psize).2.2 n2).2.1 :=
          hn3 (by omega)
        obtain ⟨hv1, hv2, hv3⟩ :=
          DecodeString_old_indep
            ((DecodeString (DecodeInteger input psize).2.2 n1).2.2) v1 v2
        have hv1a : (DecodeString (DecodeString (DecodeInteger input psize).2.2 n1).2.2 v1).1 =
            (DecodeString (DecodeString (DecodeInteger input psize).2.2 n2).2.2 v2).1 := by
          rw [hv1, hn2]
        have hv2a : (DecodeString (DecodeString (DecodeInteger input psize).2.2 n1).2.2 v1).2.2 =
            (DecodeString (DecodeString (DecodeInteger input psize).2.2 n2).2.2 v2).2.2 := by
          rw [hv2, hn2]
        by_cases hvle :
            (DecodeString (DecodeString (DecodeInteger input psize).2.2 n1).2.2 v1).1 ≤ 0
        · have hvle2 :
              (DecodeString (DecodeString (DecodeInteger input psize).2.2 n2).2.2 v2).1 ≤ 0 := by
            rw [← hv1a]
            exact hvle
          rw [if_pos hvle, if_pos hvle2]
          exact ⟨rfl, hv2a, fun hc => by dsimp only at hc; omega⟩
        · have hvle2 :
              ¬ (DecodeString (DecodeString (DecodeInteger input psize).2.2 n2).2.2 v2).1 ≤ 0 := by
            rw [← hv1a]
            exact hvle
          rw [if_neg hvle, if_neg hvle2]
          have hvala :
              (DecodeString (DecodeString (DecodeInteger input psize).2.2 n1).2.2 v1).2.1 =
              (DecodeString (DecodeString (DecodeInteger input psize).2.2 n2).2.2 v2).2.1 := by
            rw [hv3 (by omega), hn2]
          refine ⟨by dsimp only; rw [hn1, hv1a], hv2a, fun _ => ?_⟩
          dsimp only
          rw [hname, hvala]

/-- C10: the result of `HPacker::Decode` does not depend on the prior contents
of the output header: two runs from the same packer state on the same bytes
return the same value, leave the same packer state and the same remaining
input, and whenever the return value is positive they produce the same
decoded header. -/
theorem C10_decode_output_independent (p : HPacker) (input : List Nat)
    (h1 h2 : Header) :
    (p.Decode input h1).1 = (p.Decode input h2).1 ∧
    (p.Decode input h1).2.2.1 = (p.Decode input h2).2.2.1 ∧
    (p.Decode input h1).2.2.2 = (p.Decode input h2).2.2.2 ∧
    (0 < (p.Decode input h1).1 →
      (p.Decode input h1).2.1 = (p.Decode input h2).2.1) := by
  match input with
  | [] => exact ⟨rfl, rfl, rfl, fun hc => by simp [HPacker.Decode] at hc⟩
  | b :: rest =>
    simp only [HPacker.Decode]
    split
    · split
      · exact ⟨rfl, rfl, rfl, fun hc => by dsimp only at hc; omega⟩
      · split
        · exact ⟨rfl, rfl, rfl, fun hc => by dsimp only at hc; omega⟩
        · exact ⟨rfl, rfl, rfl, fun _ => rfl⟩
    · obtain ⟨hd1, hd2, hd3⟩ :=
        DecodeWithKnownPrefix_old_indep p (b :: rest) h1 h2 6
      obtain ⟨he1, he2, he3⟩ :=
        DecodeWithKnownPrefix_old_indep p (b :: rest) h1 h2 4
      split
      · by_cases hle : (p.DecodeWithKnownPrefix (b :: rest) h1 6).1 ≤ 0
        · rw [if_pos hle, if_pos (hd1 ▸ hle)]
          exact ⟨rfl, rfl, hd2, fun hc => by dsimp only at hc; omega⟩
        · rw [if_neg hle, if_neg (hd1 ▸ hle)]
          have hout := hd3 (by omega)
          exact ⟨by rw [hd1], by rw [hout], hd2, fun _ => hout⟩
      · split
        · exact ⟨rfl, rfl, rfl, fun hc => by dsimp only at hc; omega⟩
        · by_cases hle : (p.DecodeWithKnownPrefix (b :: rest) h1 4).1 ≤ 0
          · rw [if_pos hle, if_pos (he1 ▸ hle)]
            exact ⟨rfl, rfl, he2, fun hc => by dsimp only at hc; omega⟩
          · rw [if_neg hle, if_neg (he1 ▸ hle)]
            have hout := he3 (by omega)
            exact ⟨by rw [he1], rfl, he2, fun _ => hout⟩

/-- Witness for C10: decoding the indexed field `[0x82]` from two different
prior output headers. -/
theorem C10_decode_output_independent_witness :
    (((HPacker.Init 4096).Decode [0x82] ⟨[1], [2]⟩).1 =
      ((HPacker.Init 4096).Decode [0x82] ⟨[], []⟩).1) ∧
    (((HPacker.Init 4096).Decode [0x82] ⟨[1], [2]⟩).2.1 =
      ((HPacker.Init 4096).Decode [0x82] ⟨[], []⟩).2.1) :=
  ⟨(C10_decode_output_independent (HPacker.Init 4096) [0x82] ⟨[1], [2]⟩ ⟨[], []⟩).1,
   (C10_decode_output_independent (HPacker.Init 4096) [0x82] ⟨[1], [2]⟩
      ⟨[], []⟩).2.2.2 (by decide)⟩


/-! ### Indexed shortcut on encode (C6) -/

namespace IndexTable

/-- Completeness of the header lookup: a queued header with non-empty value
is found, at a positive index, when lookup indexes are enabled. -/
theorem GetIndexOfHeader_found {t : IndexTable} (mi : MapsInv t)
    (hneed : t.need_indexes = true) (hst : 1 ≤ t.start_index) (h : Header)
    (hq : h ∈ t.queue) (hv : h.value ≠ []) : 0 < t.GetIndexOfHeader h := by
  have hs := mi.hcomp hneed h hq hv
  unfold GetIndexOfHeader
  match hseek : mapSeek t.header_index h with
  | none => exact absurd hseek hs
  | some id =>
    have hpt := mi.hpt h id hseek
    dsimp only
    omega

theorem Init_start_index (opts : IndexTableOptions) :
    (Init opts).start_index = opts.start_index := by
  unfold Init
  exact addAll_start_index _ _

theorem Init_need_indexes (opts : IndexTableOptions) :
    (Init opts).need_indexes = opts.need_indexes := by
  unfold Init
  exact addAll_need_indexes _ _

end IndexTable

/-- C6 counterexample: the static table contains the header
`(:authority, "")` in full, and the policy is `HPACK_INDEX_HEADER` (not
NEVER), yet `Encode` emits the Literal-with-Incremental-Indexing form
`[0x41, 0x00]` (opcode 01, name index 1, empty value) rather than a single
Indexed Header Field with opcode bit 0x80, and it does mutate the encoder
table: headers with empty value are never entered into `_header_index`, so
the full-match lookup misses them. -/
theorem C6_counterexample :
    (⟨[58, 97, 117, 116, 104, 111, 114, 105, 116, 121], []⟩ : Header) ∈
      s_static_table.queue ∧
    ((HPacker.Init 4096).Encode ⟨[58, 97, 117, 116, 104, 111, 114, 105, 116, 121], []⟩
      ⟨HPACK_INDEX_HEADER, false, false⟩).2.1 = [0x41, 0x00] ∧
    ((HPacker.Init 4096).Encode ⟨[58, 97, 117, 116, 104, 111, 114, 105, 116, 121], []⟩
      ⟨HPACK_INDEX_HEADER, false, false⟩).2.2 ≠ HPacker.Init 4096 := by
  decide

/-- C6 (amended to headers with non-empty value): if `index_policy` is not
NEVER_INDEX and the static table or the reachable encoder-side dynamic table
holds a full (name, value) match for `h` with `h.value ≠ ""`, then `Encode`
emits exactly one Indexed Header Field — `EncodeInteger` with opcode byte
0x80 and prefix 7 at a positive index — mutating no table, and returns its
byte count; when `index_policy` is NEVER_INDEX the shortcut is never taken:
the output is the 0x10/4 literal form and the tables are again unmodified. -/
theorem C6_indexed_shortcut (max_size : Nat) (hs : List Header) (d : IndexTable)
    (h : Header) (opts : HPackOptions) (hval : h.value ≠ []) :
    let p : HPacker :=
      ⟨(IndexTable.Init ⟨max_size, s_static_table.end_index, [], true⟩).addAll hs, d⟩
    (opts.index_policy ≠ HPACK_NEVER_INDEX_HEADER →
      (h ∈ s_static_table.queue ∨ h ∈ p.encode_table.queue) →
      ∃ idx, 0 < idx ∧ (p.Encode h opts).2.1 = EncodeInteger 0x80 7 idx ∧
        (p.Encode h opts).2.2 = p ∧
        (p.Encode h opts).1 = (EncodeInteger 0x80 7 idx).length) ∧
    (opts.index_policy = HPACK_NEVER_INDEX_HEADER →
      (p.Encode h opts).2.2 = p ∧
      ∃ t, (p.Encode h opts).2.1 =
        EncodeInteger 0x10 4 (p.FindNameFromIndexTable h.name) ++ t) := by
  intro p
  obtain ⟨pol, en, ev⟩ := opts
  constructor
  · intro hpol hmem
    have hfind : 0 < p.FindHeaderFromIndexTable h := by
      have hsmi : IndexTable.MapsInv s_static_table := IndexTable.MapsInv.initMI _
      have hemi : IndexTable.MapsInv p.encode_table :=
        (IndexTable.MapsInv.initMI _).addAllMI (IndexTable.WF.initWF _) hs
      simp only [HPacker.FindHeaderFromIndexTable]
      rcases hmem with hmem | hmem
      · have hpos := IndexTable.GetIndexOfHeader_found hsmi
          (by simp only [s_static_table, IndexTable.Init_need_indexes])
          (by
            simp only [s_static_table, IndexTable.Init_start_index]
            omega) h hmem hval
        rw [if_pos hpos]
        exact hpos
      · have hpos := IndexTable.GetIndexOfHeader_found hemi
          (by simp only [p, IndexTable.addAll_need_indexes, IndexTable.Init_need_indexes])
          (by
            have h1 : s_static_table.start_index = 1 := by
              simp only [s_static_table, IndexTable.Init_start_index]
            simp only [p, IndexTable.addAll_start_index, IndexTable.Init_start_index]
            unfold IndexTable.end_index
            omega)
          h hmem hval
        by_cases hsp : s_static_table.GetIndexOfHeader h > 0
        · rw [if_pos hsp]
          exact hsp
        · rw [if_neg hsp]
          exact hpos
    simp only [HPacker.Encode]
    rw [if_pos ⟨hpol, hfind⟩]
    exact ⟨p.FindHeaderFromIndexTable h, hfind, rfl, rfl, rfl⟩
  · intro hpol
    cases hpol
    simp only [HPacker.Encode]
    rw [if_neg (by simp)]
    dsimp only
    rw [if_neg (by simp)]
    exact ⟨rfl,
      (if p.FindNameFromIndexTable h.name = 0 then EncodeString h.name en else []) ++
        EncodeString h.value ev,
      by rw [List.append_assoc]⟩

/-- Witness for C6: `(:method, GET)` is a static full match; under
`HPACK_NOT_INDEX_HEADER` the encoder still emits the Indexed form and leaves
its tables alone. -/
theorem C6_indexed_shortcut_witness :
    (([71, 69, 84] : List Nat) ≠ []) ∧
    ∃ idx, 0 < idx ∧
      ((HPacker.Init 4096).Encode ⟨[58, 109, 101, 116, 104, 111, 100], [71, 69, 84]⟩
        ⟨HPACK_NOT_INDEX_HEADER, false, false⟩).2.1 = EncodeInteger 0x80 7 idx ∧
      ((HPacker.Init 4096).Encode ⟨[58, 109, 101, 116, 104, 111, 100], [71, 69, 84]⟩
        ⟨HPACK_NOT_INDEX_HEADER, false, false⟩).2.2 = HPacker.Init 4096 ∧
      ((HPacker.Init 4096).Encode ⟨[58, 109, 101, 116, 104, 111, 100], [71, 69, 84]⟩
        ⟨HPACK_NOT_INDEX_HEADER, false, false⟩).1 = (EncodeInteger 0x80 7 idx).length :=
  ⟨by decide,
   (C6_indexed_shortcut 4096 [] (HPacker.Init 4096).decode_table
      ⟨[58, 109, 101, 116, 104, 111, 100], [71, 69, 84]⟩
      ⟨HPACK_NOT_INDEX_HEADER, false, false⟩ (by decide)).1
      (by decide) (Or.inl (by decide))⟩


/-! ### Huffman padding acceptance (C7) -/

theorem huffStepBits_cons (tr : HuffmanTree) (st : HuffDecState) (x : Bool)
    (xs : List Bool) :
    huffStepBits tr st (x :: xs) =
      match huffStep tr st x with
      | none => .error st.out
      | some st2 => huffStepBits tr st2 xs := rfl

theorem huffStepBits_append (tr : HuffmanTree) (a : List Bool) :
    ∀ (b : List Bool) (st : HuffDecState),
    huffStepBits tr st (a ++ b) =
      match huffStepBits tr st a with
      | .error e => .error e
      | .ok st1 => huffStepBits tr st1 b := by
  induction a with
  | nil => intro b st; rfl
  | cons x xs ih =>
    intro b st
    rw [List.cons_append, huffStepBits_cons, huffStepBits_cons]
    match hs : huffStep tr st x with
    | none => rfl
    | some st2 =>
      dsimp only
      exact ih b st2

/-- A successful `huffDecodeIter` over `len` bytes is a successful
`huffStepBits` over those bytes' bits, leaving the rest of the input. -/
theorem huffDecodeIter_ok_bits (tr : HuffmanTree) :
    ∀ (len : Nat) (input : List Nat) (st st1 : HuffDecState) (rem : List Nat),
    huffDecodeIter tr st input len = .ok (st1, rem) → len ≤ input.length →
    huffStepBits tr st (((input.take len).map byteBits).flatten) = .ok st1 ∧
      rem = input.drop len := by
  intro len
  induction len with
  | zero =>
    intro input st st1 rem hit _
    match input with
    | [] =>
      cases hit
      exact ⟨rfl, rfl⟩
    | b :: rest =>
      cases hit
      exact ⟨rfl, rfl⟩
  | succ n ih =>
    intro input st st1 rem hit hle
    match input with
    | [] => simp at hle
    | b :: rest =>
      rw [show huffDecodeIter tr st (b :: rest) (n + 1) =
        (match huffStepBits tr st (byteBits b) with
         | .error out => .error (out, b :: rest)
         | .ok st2 => huffDecodeIter tr st2 rest n) from rfl] at hit
      match hb : huffStepBits tr st (byteBits b) with
      | .error out =>
        rw [hb] at hit
        cases hit
      | .ok st2 =>
        rw [hb] at hit
        dsimp only at hit
        obtain ⟨h1, h2⟩ := ih rest st2 st1 rem hit (by simpa using hle)
        refine ⟨?_, by simpa using h2⟩
        rw [show ((b :: rest).take (n + 1)).map byteBits =
          byteBits b :: ((rest.take n).map byteBits) from rfl]
        rw [List.flatten_cons, huffStepBits_append, hb]
        exact h1

/-- Semantics of `_cur_depth` and `_padding` after a successful decode run:
some suffix of the processed bits (the bits since the last emitted symbol)
has length `depth`, and `padding` holds exactly when that suffix is all
ones. -/
theorem huffStepBits_trailing (tr : HuffmanTree) :
    ∀ (bits : List Bool) (st st1 : HuffDecState),
    huffStepBits tr st bits = .ok st1 →
    (st1.depth = st.depth + bits.length ∧
      (st1.padding = true ↔ (st.padding = true ∧ bits.all id = true))) ∨
    (∃ tail, tail <:+ bits ∧ tail.length = st1.depth ∧
      (st1.padding = true ↔ tail.all id = true)) := by
  intro bits
  induction bits with
  | nil =>
    intro st st1 h
    cases h
    left
    simp
  | cons b bs ih =>
    intro st st1 h
    rw [show huffStepBits tr st (b :: bs) =
      (match huffStep tr st b with
       | none => Except.error st.out
       | some st2 => huffStepBits tr st2 bs) from rfl] at h
    match hs : huffStep tr st b with
    | none =>
      rw [hs] at h
      cases h
    | some st2 =>
      rw [hs] at h
      dsimp only at h
      unfold huffStep at hs
      match hn : tr.node? st.cur with
      | none =>
        rw [hn] at hs
        cases hs
      | some nd =>
        rw [hn] at hs
        dsimp only at hs
        match hc : tr.node? (if b then nd.right_child else nd.left_child) with
        | none =>
          rw [hc] at hs
          cases hs
        | some child =>
          rw [hc] at hs
          dsimp only at hs
          by_cases hval : child.value ≠ INVALID_VALUE
          · rw [if_pos hval] at hs
            by_cases heos : child.value = HPACK_HUFFMAN_EOS
            · rw [if_pos heos] at hs
              cases hs
            · rw [if_neg heos] at hs
              cases hs
              rcases ih _ _ h with ⟨hd, hp⟩ | ⟨tail, hsuf, hlen, hpad⟩
              · right
                dsimp only at hd hp
                refine ⟨bs, List.suffix_cons b bs, by omega, ?_⟩
                rw [hp]
                simp
              · right
                exact ⟨tail, hsuf.trans (List.suffix_cons b bs), hlen, hpad⟩
          · rw [if_neg hval] at hs
            cases hs
            rcases ih _ _ h with ⟨hd, hp⟩ | ⟨tail, hsuf, hlen, hpad⟩
            · left
              dsimp only at hd hp
              refine ⟨by simp only [List.length_cons]; omega, ?_⟩
              rw [hp]
              cases b <;> cases hpd : st.padding <;> simp [hpd]
            · right
              exact ⟨tail, hsuf.trans (List.suffix_cons b bs), hlen, hpad⟩

/-- C7: for a Huffman-coded string whose byte-walk completes, the
trailing bits since the last emitted symbol are some suffix `tail` of the
consumed bit stream with `tail.length = _cur_depth` and `_padding` true
exactly for all-ones; `DecodeString` returns −1 precisely unless the
decode ended on a symbol boundary (`tail = []`) or with at most 7 all-one
trailing bits (a strict prefix of the EOS code's MSBs). -/
theorem C7_huffman_padding (input old : List Nat) (b : Nat) (rest : List Nat)
    (hin : input = b :: rest) (hhuff : b &&& 0x80 ≠ 0)
    (hlen : 0 < (DecodeInteger input 7).1)
    (hfit : ¬ (DecodeInteger input 7).2.1 > (DecodeInteger input 7).2.2.length) :
    ∀ st rem,
      huffDecodeIter s_huffman_tree ⟨1, 0, true, []⟩ (DecodeInteger input 7).2.2
        (DecodeInteger input 7).2.1 = .ok (st, rem) →
      ∃ tail : List Bool,
        tail <:+ ((((DecodeInteger input 7).2.2.take
          (DecodeInteger input 7).2.1).map byteBits).flatten) ∧
        tail.length = st.depth ∧
        (st.padding = true ↔ tail.all id = true) ∧
        ((DecodeString input old).1 = -1 ↔
          ¬ (tail.length = 0 ∨ (tail.length ≤ 7 ∧ tail.all id = true))) := by
  intro st rem hrun
  obtain ⟨hbits, hrem⟩ := huffDecodeIter_ok_bits s_huffman_tree
    (DecodeInteger input 7).2.1 (DecodeInteger input 7).2.2 ⟨1, 0, true, []⟩ st rem
    hrun (by omega)
  have htail : ∃ tail, tail <:+ ((((DecodeInteger input 7).2.2.take
      (DecodeInteger input 7).2.1).map byteBits).flatten) ∧
      tail.length = st.depth ∧ (st.padding = true ↔ tail.all id = true) := by
    rcases huffStepBits_trailing s_huffman_tree _ _ _ hbits with ⟨hd, hp⟩ | ⟨tail, h1, h2, h3⟩
    · refine ⟨_, List.suffix_refl _, by dsimp only at hd; omega, ?_⟩
      rw [hp]
      simp
    · exact ⟨tail, h1, h2, h3⟩
  obtain ⟨tail, h1, h2, h3⟩ := htail
  refine ⟨tail, h1, h2, h3, ?_⟩
  have hds : (DecodeString input old).1 =
      if huffEndStream st ≠ 0 then -1 else
        (DecodeInteger input 7).1 + ((DecodeInteger input 7).2.1 : Int) := by
    subst hin
    simp only [DecodeString]
    rw [if_neg (by omega), if_neg hfit, if_neg (by simpa using hhuff)]
    rw [hrun]
    dsimp only
    split <;> rfl
  have hend : huffEndStream st ≠ 0 ↔
      ¬ (st.depth = 0 ∨ (st.depth ≤ 7 ∧ st.padding = true)) := by
    unfold huffEndStream
    by_cases hd0 : st.depth = 0
    · rw [if_pos hd0]
      simp [hd0]
    · rw [if_neg hd0]
      by_cases hd7 : st.depth ≤ 7 ∧ st.padding = true
      · rw [if_pos hd7]
        simp [hd0, hd7]
      · rw [if_neg hd7]
        simp [hd0, hd7]
  rw [hds]
  constructor
  · intro hm1
    by_cases hh : huffEndStream st ≠ 0
    · have := hend.mp hh
      rw [← h2] at this
      rw [h3] at this
      tauto
    · rw [if_neg hh] at hm1
      omega
  · intro hcond
    have hh : huffEndStream st ≠ 0 := by
      rw [hend, ← h2]
      rw [h3]
      tauto
    rw [if_pos hh]

/-- Witness for C7 at the 2-byte input `[0x81, 0x1f]` (Huffman flag set,
declared length 1). -/
theorem C7_huffman_padding_witness :
    (([0x81, 0x1f] : List Nat) = 0x81 :: [0x1f]) ∧
    ((0x81 : Nat) &&& 0x80 ≠ 0) ∧
    (0 < (DecodeInteger [0x81, 0x1f] 7).1) ∧
    (¬ (DecodeInteger [0x81, 0x1f] 7).2.1 > (DecodeInteger [0x81, 0x1f] 7).2.2.length) ∧
    (∀ st rem,
      huffDecodeIter s_huffman_tree ⟨1, 0, true, []⟩ (DecodeInteger [0x81, 0x1f] 7).2.2
        (DecodeInteger [0x81, 0x1f] 7).2.1 = .ok (st, rem) →
      ∃ tail : List Bool,
        tail <:+ ((((DecodeInteger [0x81, 0x1f] 7).2.2.take
          (DecodeInteger [0x81, 0x1f] 7).2.1).map byteBits).flatten) ∧
        tail.length = st.depth ∧
        (st.padding = true ↔ tail.all id = true) ∧
        ((DecodeString [0x81, 0x1f] []).1 = -1 ↔
          ¬ (tail.length = 0 ∨ (tail.length ≤ 7 ∧ tail.all id = true)))) :=
  ⟨rfl, by decide, by decide, by decide,
   C7_huffman_padding [0x81, 0x1f] [] 0x81 [0x1f] rfl (by decide) (by decide) (by decide)⟩

/-! ### String codec round-trip (towards C1) -/

namespace IndexTable

end IndexTable

end brpc
